import Mathlib

/-!
Verification development for the hyperprose transpiler
(`src/rust/transpiler/src/lib.rs`).

Strings are modelled as `List Char`; Rust byte indices coincide with list
indices for the fragments manipulated here (the leading-blank counters and
trailing-terminator trimmers only inspect ASCII characters, which occupy one
byte each).  Rust's Unicode whitespace classes (`char::is_whitespace`, regex
`\s`) are modelled by their ASCII members.
-/

namespace Hyperprose

/-- The four line categories of the classifier (`enum LineType`). -/
inductive LineType where
  | Html
  | Control
  | End
  | Python
deriving DecidableEq, Repr

/-- `struct Line` — a classified source line. -/
structure Line where
  line_type : LineType
  text : List Char
  line_number : Nat
  byte_offset : Nat
deriving DecidableEq, Repr

/-- `struct SourceMapping`. -/
structure SourceMapping where
  gen_line : Nat
  gen_col : Nat
  src_line : Nat
  src_col : Nat
deriving DecidableEq, Repr

/-- `struct PythonPiece`.  The Rust field `prefix` is renamed to `pre`. -/
structure PythonPiece where
  pre : List Char
  suffix : List Char
  src_start : Nat
  src_end : Nat
deriving DecidableEq, Repr

/-- `struct TranspileResult`. -/
structure TranspileResult where
  python_code : List Char
  source_mappings : List SourceMapping
  python_pieces : Option (List PythonPiece)
deriving DecidableEq, Repr

/-! ### Character classes used by the regexes -/

/-- The class `[ \t]` used by `HTML_LINE`, `CONTROL_LINE`, `END_LINE` and
`content_bounds`. -/
def isSpTab (c : Char) : Bool := c = ' ' || c = '\t'

/-- The characters stripped by `trim_end_matches(['\r', '\n'])`. -/
def isCRLFch (c : Char) : Bool := c = '\r' || c = '\n'

/-- Regex `\s` / Rust `char::is_whitespace`, restricted to ASCII. -/
def isRegexWs (c : Char) : Bool :=
  c = ' ' || c = '\t' || c = '\n' || c = '\r' || c = '\x0b' || c = '\x0c'

/-- Rust `str::trim` (ASCII whitespace model). -/
def rustTrim (t : List Char) : List Char :=
  ((t.dropWhile isRegexWs).reverse.dropWhile isRegexWs).reverse

/-- One step of Rust's `str::lines`: a line terminator `\n` also consumes a
directly preceding `\r`. -/
def stripCR (s : List Char) : List Char :=
  match s.getLast? with
  | some '\r' => s.dropLast
  | _ => s

/-- Worker for `splitLines`; `cur` holds the characters of the line being
accumulated. -/
def splitLinesGo (cur : List Char) : List Char → List (List Char)
  | [] => [cur]
  | c :: rest =>
    if c = '\n' then
      match rest with
      | [] => [stripCR cur]
      | _ :: _ => stripCR cur :: splitLinesGo [] rest
    else
      splitLinesGo (cur ++ [c]) rest

/-- Rust `str::lines`: split at `\n` (stripping a preceding `\r`), the final
line terminator being optional, and an empty source yielding no lines. -/
def splitLines : List Char → List (List Char)
  | [] => []
  | c :: rest => splitLinesGo [] (c :: rest)

/-! ### Line classification (`classify_line` and the `lazy_static` regexes) -/

/-- Leading `[ \t]*` of an anchored regex. -/
def dropSpTab (t : List Char) : List Char := t.dropWhile isSpTab

/-- `END_LINE`: `^[ \t]*end[ \t]*$`. -/
def isEndLine (t : List Char) : Bool :=
  match dropSpTab t with
  | 'e' :: 'n' :: 'd' :: rest => rest.all isSpTab
  | _ => false

/-- `HTML_LINE`: `^[ \t]*<`. -/
def isHtmlLine (t : List Char) : Bool :=
  match dropSpTab t with
  | '<' :: _ => true
  | _ => false

/-- The keyword alternation of `CONTROL_LINE`. -/
def controlKws : List (List Char) :=
  ["if", "for", "while", "match", "def", "class", "elif", "else", "case",
   "try", "except", "finally", "with"].map String.toList

/-- The trailing class `[ \t(:]` of `CONTROL_LINE`. -/
def kwDelim (c : Char) : Bool := c = ' ' || c = '\t' || c = '(' || c = ':'

/-- A control keyword followed by `[ \t(:]` at the head of `t`. -/
def kwAt (t : List Char) : Bool :=
  controlKws.any (fun kw =>
    kw.isPrefixOf t &&
    (match t.drop kw.length with
     | c :: _ => kwDelim c
     | [] => false))

/-- `CONTROL_LINE`:
`^[ \t]*(async[ \t]+)?(if|for|...|with)[ \t(:]`.  Since no keyword begins
with a space/tab, the starred classes match maximally. -/
def isControlLine (t : List Char) : Bool :=
  let s := dropSpTab t
  kwAt s ||
    ("async".toList.isPrefixOf s &&
     (match s.drop 5 with
      | c :: rest => isSpTab c && kwAt (dropSpTab rest)
      | [] => false))

/-- `fn classify_line`. -/
def classify_line (text : List Char) : LineType :=
  if isEndLine text then LineType.End
  else if isHtmlLine text then LineType.Html
  else if isControlLine text then LineType.Control
  else LineType.Python

/-- Worker for `lex`, carrying the enumeration index and the running byte
offset (`byte_offset += text.len() + 1`). -/
def lexGo (i off : Nat) : List (List Char) → List Line
  | [] => []
  | t :: rest => ⟨classify_line t, t, i, off⟩ :: lexGo (i + 1) (off + t.length + 1) rest

/-- `fn lex`. -/
def lex (source : List Char) : List Line := lexGo 0 0 (splitLines source)

/-! ### The async-signature scan (`has_await`, `has_async_construct`) -/

/-- `AWAIT_START`: `^await\s`. -/
def awaitStart (t : List Char) : Bool :=
  "await".toList.isPrefixOf t &&
  (match t.drop 5 with
   | c :: _ => isRegexWs c
   | [] => false)

/-- The class `[=(\[,:]` of `AWAIT_INLINE`. -/
def awaitTrigger (c : Char) : Bool :=
  c = '=' || c = '(' || c = '[' || c = ',' || c = ':'

/-- The part of `AWAIT_INLINE` after the trigger character: `\s*await\s`. -/
def awaitAfter (r : List Char) : Bool :=
  let r2 := r.dropWhile isRegexWs
  "await".toList.isPrefixOf r2 &&
  (match r2.drop 5 with
   | c :: _ => isRegexWs c
   | [] => false)

/-- `AWAIT_INLINE`: `[=(\[,:]\s*await\s`, unanchored search. -/
def awaitInline : List Char → Bool
  | [] => false
  | c :: rest => (awaitTrigger c && awaitAfter rest) || awaitInline rest

/-- `ASYNC_FOR`: `^\s*async\s+for\s`. -/
def asyncForLine (t : List Char) : Bool :=
  let s := t.dropWhile isRegexWs
  "async".toList.isPrefixOf s &&
  (match s.drop 5 with
   | c :: rest =>
     isRegexWs c &&
     (let r := rest.dropWhile isRegexWs
      "for".toList.isPrefixOf r &&
      (match r.drop 3 with
       | d :: _ => isRegexWs d
       | [] => false))
   | [] => false)

/-- `ASYNC_WITH`: `^\s*async\s+with\s`. -/
def asyncWithLine (t : List Char) : Bool :=
  let s := t.dropWhile isRegexWs
  "async".toList.isPrefixOf s &&
  (match s.drop 5 with
   | c :: rest =>
     isRegexWs c &&
     (let r := rest.dropWhile isRegexWs
      "with".toList.isPrefixOf r &&
      (match r.drop 4 with
       | d :: _ => isRegexWs d
       | [] => false))
   | [] => false)

/-- The per-line predicate inside `has_await`. -/
def awaitLineB (line : Line) : Bool :=
  if line.line_type = LineType.Python then
    let text := rustTrim line.text
    (match text with
     | '#' :: _ => false
     | _ => true) &&
    (awaitStart text || awaitInline text)
  else
    false

/-- `fn has_await`. -/
def has_await (lines : List Line) : Bool := lines.any awaitLineB

/-- The per-line predicate inside `has_async_construct`. -/
def asyncConstructB (line : Line) : Bool :=
  line.line_type = LineType.Control &&
  (asyncForLine line.text || asyncWithLine line.text)

/-- `fn has_async_construct`. -/
def has_async_construct (lines : List Line) : Bool := lines.any asyncConstructB

/-! ### Structure extraction (`find_structure`, `TYPE_ANNOTATION`) -/

/-- `[a-zA-Z_]`. -/
def isIdentStart (c : Char) : Bool := c.isAlpha || c = '_'

/-- `[a-zA-Z0-9_]`. -/
def isIdentChar (c : Char) : Bool := c.isAlphanum || c = '_'

/-- Matching of the suffix `\s*(.+)$` against `r3` (the text after the colon):
some split into a `\s*` prefix and a nonempty `.+` part (no `\n`) reaching
the end must exist. -/
def annTail (r3 : List Char) : Bool :=
  (List.range (r3.length + 1)).any (fun k =>
    (r3.take k).all isRegexWs &&
    !(r3.drop k).isEmpty &&
    (r3.drop k).all (fun c => c ≠ '\n'))

/-- `TYPE_ANNOTATION`: `^([a-zA-Z_][a-zA-Z0-9_]*)\s*:\s*(.+)$`.  The
identifier class, `\s` and `:` are pairwise disjoint, so the starred parts
match maximally. -/
def typeAnnot (t : List Char) : Bool :=
  match t with
  | [] => false
  | c :: rest =>
    isIdentStart c &&
    (match (rest.dropWhile isIdentChar).dropWhile isRegexWs with
     | ':' :: r3 => annTail r3
     | _ => false)

/-- Worker for `find_structure`; mirrors the indexed loop with its
`seen_param` flag, accumulators and early `break`. -/
def findGo (seen_param : Bool) (i : Nat) (leading params : List Line)
    (body_start : Nat) : List Line → (List Line × List Line × Nat)
  | [] => (leading, params, body_start)
  | line :: rest =>
    let trimmed := rustTrim line.text
    if trimmed.isEmpty && !seen_param then
      findGo seen_param (i + 1) (leading ++ [line]) params (i + 1) rest
    else if !seen_param && (match trimmed with
                            | '#' :: _ => true
                            | _ => false) then
      findGo seen_param (i + 1) (leading ++ [line]) params (i + 1) rest
    else if line.line_type = LineType.Python && typeAnnot trimmed then
      findGo true (i + 1) leading (params ++ [line]) (i + 1) rest
    else
      (leading, params, body_start)

/-- `fn find_structure`. -/
def find_structure (lines : List Line) : List Line × List Line × Nat :=
  findGo false 0 [] [] 0 lines

/-! ### `content_bounds` and slicing -/

/-- `text.trim_end_matches(['\r', '\n'])`. -/
def trimEndCRLF : List Char → List Char
  | [] => []
  | c :: t =>
    match trimEndCRLF t with
    | [] => if isCRLFch c then [] else [c]
    | r => c :: r

/-- `fn content_bounds`: count of leading blanks/tabs, and the length after
stripping trailing `\r`/`\n`. -/
def content_bounds (text : List Char) : Nat × Nat :=
  ((text.takeWhile isSpTab).length, (trimEndCRLF text).length)

/-- Rust slice `t[s..e]`. -/
def sliceStr (t : List Char) (s e : Nat) : List Char := (t.drop s).take (e - s)

/-! ### The generator state and per-line emission -/

/-- The accumulators and loop state of `transpile_ext`: the generated lines,
mappings, optional pieces, `out_line`, and the body loop's `level` and
`stack` (stack top at the list head; Rust pushes/pops at the `Vec` end). -/
structure St where
  output : List (List Char)
  mappings : List SourceMapping
  pieces : Option (List PythonPiece)
  out_line : Nat
  level : Nat
  stack : List String
deriving DecidableEq, Repr

/-- `"    ".repeat(n)` (the `indent` unit has length 4). -/
def indentRep (n : Nat) : List Char := List.replicate (4 * n) ' '

/-- `"\n"`. -/
def nlTok : List Char := ['\n']

/-- What one body line emits: the generated line, its mapping, its piece, and
the updated `level`/`stack`. -/
structure Emit where
  line : List Char
  map : SourceMapping
  piece : PythonPiece
  level : Nat
  stack : List String
deriving DecidableEq, Repr

/-- The `while stack.last() == Some(&"case")` loop of the `End` arm: pop the
trailing `case` tags, with `level = level.saturating_sub(1)` per pop. -/
def popCases : List String → Nat → List String × Nat
  | [], lvl => ([], lvl)
  | t :: rest, lvl =>
    if t = "case" then popCases rest (lvl - 1) else (t :: rest, lvl)

/-- The body of the `for i in body_start..lines.len()` loop, for one line,
given the current `level`, `stack` and `out_line`.  Branches follow the Rust
`match line.line_type` exactly; `trimmed` is `line.text[start..end]`. -/
def bodyGen (level : Nat) (stack : List String) (out_line : Nat)
    (line : Line) : Emit :=
  let start := (content_bounds line.text).1
  let «end» := (content_bounds line.text).2
  if «end» ≤ start then
    ⟨[], ⟨out_line, 0, line.line_number, 0⟩,
     ⟨[], nlTok, line.byte_offset, line.byte_offset⟩, level, stack⟩
  else
    let trimmed := sliceStr line.text start «end»
    let src_start := line.byte_offset + start
    let src_end := line.byte_offset + «end»
    match line.line_type with
    | LineType.Control =>
      let is_dedent :=
        (["else", "elif", "except", "finally"].map String.toList).any
          (fun kw => kw.isPrefixOf trimmed)
      let is_case := "case".toList.isPrefixOf trimmed
      if is_dedent then
        let print_level := Nat.max (level - 1) 1
        ⟨indentRep print_level ++ trimmed,
         ⟨out_line, 4 * print_level, line.line_number, start⟩,
         ⟨indentRep print_level, nlTok, src_start, src_end⟩, level, stack⟩
      else if is_case then
        let stack1 := if stack.head? = some "case" then stack.tail else stack
        let level1 := if stack.head? = some "case" then level - 1 else level
        ⟨indentRep level1 ++ trimmed,
         ⟨out_line, 4 * level1, line.line_number, start⟩,
         ⟨indentRep level1, nlTok, src_start, src_end⟩,
         level1 + 1, "case" :: stack1⟩
      else
        ⟨indentRep level ++ trimmed,
         ⟨out_line, 4 * level, line.line_number, start⟩,
         ⟨indentRep level, nlTok, src_start, src_end⟩,
         level + 1,
         (if "match".toList.isPrefixOf trimmed then "match" else "block") :: stack⟩
    | LineType.End =>
      let p := popCases stack level
      let stack2 := if p.1.isEmpty then p.1 else p.1.tail
      let level2 := if p.1.isEmpty then p.2 else p.2 - 1
      let level3 := Nat.max level2 1
      ⟨indentRep level3 ++ "pass".toList,
       ⟨out_line, 0, line.line_number, 0⟩,
       ⟨indentRep level3 ++ "pass\n".toList, [], line.byte_offset, line.byte_offset⟩,
       level3, stack2⟩
    | LineType.Html =>
      ⟨indentRep level ++ "t\"\"\"".toList ++ trimmed ++ "\"\"\"".toList,
       ⟨out_line, 4 * level + 4, line.line_number, start⟩,
       ⟨indentRep level ++ "t\"\"\"".toList, "\"\"\"\n".toList, src_start, src_end⟩,
       level, stack⟩
    | LineType.Python =>
      ⟨indentRep level ++ trimmed,
       ⟨out_line, 4 * level, line.line_number, start⟩,
       ⟨indentRep level, nlTok, src_start, src_end⟩, level, stack⟩

/-- One iteration of the body loop: push the emitted line, mapping and
(when enabled) piece, advance `out_line`, adopt the new `level`/`stack`. -/
def bodyStep (st : St) (line : Line) : St :=
  let g := bodyGen st.level st.stack st.out_line line
  ⟨st.output ++ [g.line], st.mappings ++ [g.map],
   st.pieces.map (fun ps => ps ++ [g.piece]), st.out_line + 1, g.level, g.stack⟩

/-- What one leading line (comment or blank) emits. -/
def leadGen (out_line : Nat) (line : Line) : List Char × SourceMapping × PythonPiece :=
  if !(rustTrim line.text).isEmpty then
    let start := (content_bounds line.text).1
    let «end» := (content_bounds line.text).2
    (sliceStr line.text start «end»,
     ⟨out_line, 0, line.line_number, start⟩,
     ⟨[], nlTok, line.byte_offset + start, line.byte_offset + «end»⟩)
  else
    ([], ⟨out_line, 0, line.line_number, 0⟩,
     ⟨[], nlTok, line.byte_offset, line.byte_offset⟩)

/-- One iteration of the leading-content loop. -/
def leadStep (st : St) (line : Line) : St :=
  let g := leadGen st.out_line line
  ⟨st.output ++ [g.1], st.mappings ++ [g.2.1],
   st.pieces.map (fun ps => ps ++ [g.2.2]), st.out_line + 1, st.level, st.stack⟩

/-- The injection pieces generated for the parameters: the first gets the
function-header prefix, subsequent ones `", "`, and the last the `"):\n"`
suffix. -/
def paramPiecesGo (def_kw : List Char) (total : Nat) :
    Nat → List Line → List PythonPiece
  | _, [] => []
  | i, p :: rest =>
    let s := (content_bounds p.text).1
    let e := (content_bounds p.text).2
    ⟨(if i = 0 then def_kw ++ " __hyper_template__(".toList else ", ".toList),
     (if i = total - 1 then "):\n".toList else []),
     p.byte_offset + s, p.byte_offset + e⟩ :: paramPiecesGo def_kw total (i + 1) rest

/-- The function-signature emission of `transpile_ext`: one generated line,
one mapping, and the parameter pieces (or a single header piece when there
are no parameters). -/
def emitSignature (def_kw : List Char) (lines params : List Line)
    (body_start : Nat) (st : St) : St :=
  match params with
  | first :: _ =>
    let param_strs := params.map (fun p =>
      sliceStr p.text (content_bounds p.text).1 (content_bounds p.text).2)
    let sig := def_kw ++ " __hyper_template__(".toList ++
      List.intercalate ", ".toList param_strs ++ "):".toList
    ⟨st.output ++ [sig],
     st.mappings ++ [⟨st.out_line,
       def_kw.length + (" __hyper_template__(".toList).length,
       first.line_number, (content_bounds first.text).1⟩],
     st.pieces.map (fun ps => ps ++ paramPiecesGo def_kw params.length 0 params),
     st.out_line + 1, st.level, st.stack⟩
  | [] =>
    let body_offset :=
      if body_start < lines.length then
        match lines.get? body_start with
        | some l => l.byte_offset
        | none => 0
      else
        match lines.getLast? with
        | some l => l.byte_offset
        | none => 0
    ⟨st.output ++ [def_kw ++ " __hyper_template__():".toList],
     st.mappings ++ [⟨st.out_line, 0, Nat.min body_start (lines.length - 1), 0⟩],
     st.pieces.map (fun ps => ps ++
       [⟨def_kw ++ " __hyper_template__():\n".toList, [], body_offset, body_offset⟩]),
     st.out_line + 1, st.level, st.stack⟩

/-- `output.join("\n")`, then append a final `\n` when the joined code is
nonempty and does not already end in one. -/
def finalizeCode (output : List (List Char)) : List Char :=
  let code := List.intercalate nlTok output
  if !code.isEmpty && code.getLast? ≠ some '\n' then code ++ nlTok else code

/-- `fn transpile_ext`. -/
def transpile_ext (source : List Char) (include_injection : Bool) : TranspileResult :=
  let lines := lex source
  let fs := find_structure lines
  let leading := fs.1
  let params := fs.2.1
  let body_start := fs.2.2
  let is_async := has_await lines || has_async_construct lines
  let def_kw := if is_async then "async def".toList else "def".toList
  let st0 : St := ⟨[], [], if include_injection then some [] else none, 0, 1, []⟩
  let st1 := leading.foldl leadStep st0
  let st2 := emitSignature def_kw lines params body_start st1
  let st3 := (lines.drop body_start).foldl bodyStep st2
  ⟨finalizeCode st3.output, st3.mappings, st3.pieces⟩

/-- `fn transpile`. -/
def transpile (source : List Char) : TranspileResult :=
  transpile_ext source false

end Hyperprose

namespace Hyperprose

/-! ### Basic facts about the character classes and `content_bounds` -/

lemma isSpTab_not_crlf {c : Char} (h : isSpTab c = true) : isCRLFch c = false := by
  simp only [isSpTab, Bool.or_eq_true, decide_eq_true_eq] at h
  rcases h with h | h <;> subst h <;> decide

lemma trimEndCRLF_cons_nil {c : Char} {r : List Char} (h : trimEndCRLF r = []) :
    trimEndCRLF (c :: r) = if isCRLFch c = true then [] else [c] := by
  simp [trimEndCRLF, h]

lemma trimEndCRLF_cons_cons {c x : Char} {r xs : List Char}
    (h : trimEndCRLF r = x :: xs) : trimEndCRLF (c :: r) = c :: x :: xs := by
  simp [trimEndCRLF, h]

lemma trimEndCRLF_length_le (t : List Char) : (trimEndCRLF t).length ≤ t.length := by
  induction t with
  | nil => simp [trimEndCRLF]
  | cons c r ih =>
    cases hr : trimEndCRLF r with
    | nil =>
      rw [trimEndCRLF_cons_nil hr]
      by_cases hc : isCRLFch c = true <;> simp [hc]
    | cons x xs =>
      rw [trimEndCRLF_cons_cons hr]
      rw [hr] at ih
      simpa using ih

lemma cb_start_le_end (t : List Char) :
    (content_bounds t).1 ≤ (content_bounds t).2 := by
  simp only [content_bounds]
  induction t with
  | nil => simp
  | cons c r ih =>
    by_cases hc : isSpTab c = true
    · have hcr : isCRLFch c = false := isSpTab_not_crlf hc
      simp only [List.takeWhile_cons, hc, if_true, List.length_cons]
      cases hr : trimEndCRLF r with
      | nil =>
        rw [trimEndCRLF_cons_nil hr]
        rw [hr] at ih
        simp only [List.length_nil, Nat.le_zero] at ih
        simp [hcr, ih]
      | cons x xs =>
        rw [trimEndCRLF_cons_cons hr]
        rw [hr] at ih
        simpa using ih
    · simp only [List.takeWhile_cons, hc]
      simp

lemma cb_end_le_length (t : List Char) : (content_bounds t).2 ≤ t.length := by
  simpa [content_bounds] using trimEndCRLF_length_le t

lemma trimEndCRLF_prefix (t : List Char) : trimEndCRLF t <+: t := by
  induction t with
  | nil => simp [trimEndCRLF]
  | cons c r ih =>
    cases hr : trimEndCRLF r with
    | nil =>
      rw [trimEndCRLF_cons_nil hr]
      by_cases hc : isCRLFch c = true
      · simp [hc]
      · rw [if_neg hc]
        exact ⟨r, rfl⟩
    | cons x xs =>
      rw [trimEndCRLF_cons_cons hr]
      rw [hr] at ih
      exact (List.prefix_cons_inj c).mpr ih

lemma trimEndCRLF_getLast (t : List Char) {c : Char}
    (h : (trimEndCRLF t).getLast? = some c) : isCRLFch c = false := by
  induction t with
  | nil => simp [trimEndCRLF] at h
  | cons a r ih =>
    cases hr : trimEndCRLF r with
    | nil =>
      rw [trimEndCRLF_cons_nil hr] at h
      by_cases ha : isCRLFch a = true
      · rw [if_pos ha] at h; simp at h
      · rw [if_neg ha] at h
        rw [List.getLast?_singleton, Option.some_inj] at h
        subst h
        simpa using ha
    | cons x xs =>
      rw [trimEndCRLF_cons_cons hr, List.getLast?_cons_cons] at h
      exact ih (hr ▸ h)

lemma take_drop_prefix {α : Type} {m u l : List α} (hu : m ++ u = l) {s : Nat}
    (hs : s ≤ m.length) : (l.drop s).take (m.length - s) = m.drop s := by
  subst hu
  rw [List.drop_append_of_le_length hs]
  have hlen : (m.drop s).length = m.length - s := by simp
  rw [← hlen, List.take_left]

/-- The slice `t[start..end]` equals the trimmed-end text with the leading
run dropped. -/
lemma sliceStr_cb (t : List Char) :
    sliceStr t (content_bounds t).1 (content_bounds t).2 =
      (trimEndCRLF t).drop (content_bounds t).1 := by
  obtain ⟨u, hu⟩ := trimEndCRLF_prefix t
  have hs := cb_start_le_end t
  simp only [content_bounds] at hs
  simp only [sliceStr, content_bounds]
  exact take_drop_prefix hu hs

lemma sliceStr_sublist (t : List Char) (s e : Nat) :
    List.Sublist (sliceStr t s e) t :=
  (List.take_sublist _ _).trans (List.drop_sublist _ _)

lemma getLast?_drop_ne_nil {α : Type} :
    ∀ (t : List α) (s : Nat), t.drop s ≠ [] → (t.drop s).getLast? = t.getLast? := by
  intro t
  induction t with
  | nil => intro s h; simp at h
  | cons c r ih =>
    intro s h
    cases s with
    | zero => rfl
    | succ s =>
      simp only [List.drop_succ_cons] at h ⊢
      rw [ih s h]
      cases r with
      | nil => simp at h
      | cons x xs => rw [List.getLast?_cons_cons]

/-- A non-blank body slice never ends in a carriage return. -/
lemma sliceStr_cb_getLast (t : List Char) :
    (sliceStr t (content_bounds t).1 (content_bounds t).2).getLast? ≠ some '\r' := by
  rw [sliceStr_cb]
  intro h
  have hne : (trimEndCRLF t).drop (content_bounds t).1 ≠ [] := by
    intro hnil; rw [hnil] at h; simp at h
  rw [getLast?_drop_ne_nil _ _ hne] at h
  have := trimEndCRLF_getLast t h
  simp [isCRLFch] at this

lemma mem_sliceStr {t : List Char} {s e : Nat} {c : Char}
    (h : c ∈ sliceStr t s e) : c ∈ t :=
  (sliceStr_sublist t s e).subset h

lemma head?_dropWhile_not {p : Char → Bool} :
    ∀ {t : List Char} {c : Char}, (t.dropWhile p).head? = some c → p c = false := by
  intro t
  induction t with
  | nil => intro c h; simp [List.dropWhile] at h
  | cons a r ih =>
    intro c h
    rw [List.dropWhile_cons] at h
    by_cases ha : p a = true
    · rw [if_pos ha] at h; exact ih h
    · rw [if_neg ha] at h
      simp only [List.head?_cons, Option.some_inj] at h
      simp only [Bool.not_eq_true] at ha
      rwa [← h]

lemma head?_take_pos {α : Type} {t : List α} {n : Nat} (h : 0 < n) :
    (t.take n).head? = t.head? := by
  cases t with
  | nil => simp
  | cons a r =>
    cases n with
    | zero => exact absurd h (Nat.lt_irrefl 0)
    | succ n => simp

lemma drop_length_takeWhile (p : Char → Bool) (t : List Char) :
    t.drop (t.takeWhile p).length = t.dropWhile p := by
  induction t with
  | nil => simp
  | cons c r ih =>
    by_cases hc : p c = true
    · simp [List.takeWhile_cons, List.dropWhile_cons, hc, ih]
    · simp [List.takeWhile_cons, List.dropWhile_cons, hc]

/-- A non-blank slice starts with a character that is not a space or tab. -/
lemma sliceStr_cb_head (t : List Char)
    (h : (content_bounds t).1 < (content_bounds t).2) :
    ∃ c, (sliceStr t (content_bounds t).1 (content_bounds t).2).head? = some c ∧
      isSpTab c = false := by
  have hlen : (content_bounds t).1 < t.length :=
    Nat.lt_of_lt_of_le h (cb_end_le_length t)
  have hdrop : t.drop (content_bounds t).1 = t.dropWhile isSpTab := by
    simpa [content_bounds] using drop_length_takeWhile isSpTab t
  have hne : t.dropWhile isSpTab ≠ [] := by
    rw [← hdrop]
    intro hnil
    have := List.drop_eq_nil_iff.mp hnil
    omega
  obtain ⟨c, cs, hcase⟩ := List.exists_cons_of_ne_nil hne
  refine ⟨c, ?_, ?_⟩
  · show ((t.drop (content_bounds t).1).take _).head? = some c
    rw [head?_take_pos (by omega), hdrop, hcase]
    rfl
  · exact head?_dropWhile_not (p := isSpTab) (t := t) (by rw [hcase]; rfl)

end Hyperprose

namespace Hyperprose

/-! ### `splitLines` and `finalizeCode` -/

lemma stripCR_self {l : List Char} (h : l.getLast? ≠ some '\r') : stripCR l = l := by
  unfold stripCR
  split
  · rename_i heq
    exact absurd heq h
  · rfl

lemma noNL_stripCR {l : List Char} (h : '\n' ∉ l) : '\n' ∉ stripCR l := by
  unfold stripCR
  split
  · exact fun hm => h ((List.dropLast_sublist l).subset hm)
  · exact h

lemma splitLinesGo_ne_nil (cur cs : List Char) : splitLinesGo cur cs ≠ [] := by
  induction cs generalizing cur with
  | nil => simp [splitLinesGo]
  | cons c rest ih =>
    simp only [splitLinesGo]
    by_cases hc : c = '\n'
    · rw [if_pos hc]
      cases rest <;> simp
    · rw [if_neg hc]
      exact ih _

lemma noNL_mem_splitLinesGo {cur cs : List Char} (hc : '\n' ∉ cur) :
    ∀ s ∈ splitLinesGo cur cs, '\n' ∉ s := by
  induction cs generalizing cur with
  | nil =>
    intro s hs
    simp only [splitLinesGo, List.mem_singleton] at hs
    exact hs ▸ hc
  | cons c rest ih =>
    intro s hs
    simp only [splitLinesGo] at hs
    by_cases hnl : c = '\n'
    · rw [if_pos hnl] at hs
      cases rest with
      | nil =>
        simp only [List.mem_singleton] at hs
        exact hs ▸ noNL_stripCR hc
      | cons d r =>
        rcases List.mem_cons.mp hs with h1 | h2
        · exact h1 ▸ noNL_stripCR hc
        · exact ih (by simp) s h2
    · rw [if_neg hnl] at hs
      refine ih ?_ s hs
      intro hmem
      rcases List.mem_append.mp hmem with h1 | h2
      · exact hc h1
      · simp only [List.mem_singleton] at h2
        exact hnl h2.symm

lemma noNL_mem_splitLines {source s : List Char} (hs : s ∈ splitLines source) :
    '\n' ∉ s := by
  cases source with
  | nil => simp [splitLines] at hs
  | cons c rest => exact noNL_mem_splitLinesGo (by simp) s hs

lemma mem_lexGo {l : Line} :
    ∀ {segs : List (List Char)} {i off : Nat}, l ∈ lexGo i off segs → l.text ∈ segs := by
  intro segs
  induction segs with
  | nil => intro i off h; simp [lexGo] at h
  | cons t rest ih =>
    intro i off h
    simp only [lexGo, List.mem_cons] at h
    rcases h with h | h
    · subst h; simp
    · exact List.mem_cons_of_mem _ (ih h)

lemma noNL_lex {source : List Char} {l : Line} (h : l ∈ lex source) :
    '\n' ∉ l.text :=
  noNL_mem_splitLines (mem_lexGo h)

lemma intercalate_nil_list (sep : List Char) : List.intercalate sep [] = [] := by
  simp [List.intercalate, List.intersperse]

lemma intercalate_singleton_list (sep a : List Char) :
    List.intercalate sep [a] = a := by
  simp [List.intercalate, List.intersperse]

lemma intercalate_cons₂ (sep a b : List Char) (l : List (List Char)) :
    List.intercalate sep (a :: b :: l) = a ++ sep ++ List.intercalate sep (b :: l) := by
  simp [List.intercalate, List.intersperse]

lemma intercalate_concat (sep z : List Char) :
    ∀ (ys : List (List Char)), ys ≠ [] →
      List.intercalate sep (ys ++ [z]) = List.intercalate sep ys ++ sep ++ z := by
  intro ys
  induction ys with
  | nil => intro h; exact absurd rfl h
  | cons y rest ih =>
    intro _
    cases rest with
    | nil =>
      have h1 : ([y] : List (List Char)) ++ [z] = [y, z] := rfl
      rw [h1, intercalate_cons₂, intercalate_singleton_list, intercalate_singleton_list]
    | cons y2 r2 =>
      have hstep : (y :: y2 :: r2) ++ [z] = y :: ((y2 :: r2) ++ [z]) := rfl
      have h2 : (y2 :: r2) ++ [z] = y2 :: (r2 ++ [z]) := rfl
      calc List.intercalate sep ((y :: y2 :: r2) ++ [z])
          = y ++ sep ++ List.intercalate sep ((y2 :: r2) ++ [z]) := by
            rw [hstep, h2]; exact intercalate_cons₂ sep y y2 (r2 ++ [z])
        _ = y ++ sep ++ (List.intercalate sep (y2 :: r2) ++ sep ++ z) := by
            rw [ih (by simp)]
        _ = List.intercalate sep (y :: y2 :: r2) ++ sep ++ z := by
            rw [intercalate_cons₂ sep y y2 r2]; simp [List.append_assoc]

lemma splitLines_of_ne_nil {cs : List Char} (h : cs ≠ []) :
    splitLines cs = splitLinesGo [] cs := by
  cases cs with
  | nil => exact absurd rfl h
  | cons c rest => rfl

lemma splitLinesGo_nl_nil (cur : List Char) :
    splitLinesGo cur ['\n'] = [stripCR cur] := rfl

lemma splitLinesGo_nl_cons (cur : List Char) (d : Char) (r : List Char) :
    splitLinesGo cur ('\n' :: d :: r) = stripCR cur :: splitLinesGo [] (d :: r) := rfl

lemma splitLinesGo_cons_ne {c : Char} (hc : c ≠ '\n') (cur rest : List Char) :
    splitLinesGo cur (c :: rest) = splitLinesGo (cur ++ [c]) rest := by
  have hbody : splitLinesGo cur (c :: rest) =
      if c = '\n' then
        (match rest with
         | [] => [stripCR cur]
         | _ :: _ => stripCR cur :: splitLinesGo [] rest)
      else splitLinesGo (cur ++ [c]) rest := rfl
  rw [hbody, if_neg hc]

lemma splitLinesGo_nonl {s : List Char} (h : '\n' ∉ s) :
    ∀ cur, splitLinesGo cur s = [cur ++ s] := by
  induction s with
  | nil => intro cur; simp [splitLinesGo]
  | cons c rest ih =>
    intro cur
    have hc : c ≠ '\n' := fun hh => h (hh ▸ List.mem_cons_self c rest)
    rw [splitLinesGo_cons_ne hc]
    rw [ih (fun hm => h (List.mem_cons_of_mem _ hm))]
    simp

lemma splitLinesGo_last {s : List Char} (h : '\n' ∉ s) :
    ∀ cur, splitLinesGo cur (s ++ ['\n']) = [stripCR (cur ++ s)] := by
  induction s with
  | nil => intro cur; simp [splitLinesGo_nl_nil]
  | cons c rest ih =>
    intro cur
    have hc : c ≠ '\n' := fun hh => h (hh ▸ List.mem_cons_self c rest)
    rw [List.cons_append, splitLinesGo_cons_ne hc]
    rw [ih (fun hm => h (List.mem_cons_of_mem _ hm))]
    simp

lemma splitLinesGo_mid {s : List Char} (h : '\n' ∉ s) (d : Char) (r : List Char) :
    ∀ cur, splitLinesGo cur (s ++ '\n' :: d :: r) =
      stripCR (cur ++ s) :: splitLinesGo [] (d :: r) := by
  induction s with
  | nil => intro cur; simp [splitLinesGo_nl_cons]
  | cons c rest ih =>
    intro cur
    have hc : c ≠ '\n' := fun hh => h (hh ▸ List.mem_cons_self c rest)
    rw [List.cons_append, splitLinesGo_cons_ne hc]
    rw [ih (fun hm => h (List.mem_cons_of_mem _ hm))]
    simp

/-- Splitting newline-terminated lines recovers them, provided none contains
a newline or ends with a carriage return. -/
lemma splitLines_join (ys : List (List Char)) (hne : ys ≠ [])
    (h : ∀ y ∈ ys, '\n' ∉ y ∧ y.getLast? ≠ some '\r') :
    splitLines (List.intercalate nlTok ys ++ nlTok) = ys := by
  induction ys with
  | nil => exact absurd rfl hne
  | cons y rest ih =>
    have hy := h y (List.mem_cons_self y rest)
    cases rest with
    | nil =>
      rw [intercalate_singleton_list]
      rw [splitLines_of_ne_nil (by simp [nlTok])]
      show splitLinesGo [] (y ++ ['\n']) = [y]
      rw [splitLinesGo_last hy.1]
      simp [stripCR_self hy.2]
    | cons y2 r2 =>
      have hrest : List.intercalate nlTok (y2 :: r2) ++ nlTok ≠ [] := by
        simp [nlTok]
      obtain ⟨d, r, hdr⟩ := List.exists_cons_of_ne_nil hrest
      rw [intercalate_cons₂]
      have hassoc : y ++ nlTok ++ List.intercalate nlTok (y2 :: r2) ++ nlTok =
          y ++ '\n' :: (List.intercalate nlTok (y2 :: r2) ++ nlTok) := by
        simp [nlTok]
      rw [hassoc, hdr]
      rw [splitLines_of_ne_nil (by simp)]
      rw [splitLinesGo_mid hy.1]
      rw [← splitLines_of_ne_nil (by simp), ← hdr]
      rw [ih (by simp) (fun z hz => h z (List.mem_cons_of_mem _ hz))]
      simp [stripCR_self hy.2]

/-- How `finalizeCode` interacts with line splitting: the final blank
generated line (if any) is absorbed by its terminator. -/
lemma splitLines_finalize (out : List (List Char))
    (h : ∀ l ∈ out, '\n' ∉ l ∧ l.getLast? ≠ some '\r') :
    splitLines (finalizeCode out) =
      if out.getLast? = some [] then out.dropLast else out := by
  rcases List.eq_nil_or_concat out with hnil | ⟨ys, z, hconcat⟩
  · subst hnil
    simp only [List.getLast?_nil]
    rw [if_neg (by simp)]
    show splitLines (finalizeCode []) = []
    rw [finalizeCode, intercalate_nil_list]
    rfl
  · rw [List.concat_eq_append] at hconcat
    subst hconcat
    by_cases hz : z = []
    · subst hz
      rw [List.getLast?_concat, if_pos rfl, List.dropLast_concat]
      cases ys with
      | nil =>
        simp only [List.nil_append]
        rw [finalizeCode, intercalate_singleton_list]
        rfl
      | cons y0 yr =>
        rw [finalizeCode, intercalate_concat nlTok [] (y0 :: yr) (by simp)]
        simp only [List.append_nil]
        have hend : (List.intercalate nlTok (y0 :: yr) ++ nlTok).getLast? = some '\n' := by
          show (List.intercalate nlTok (y0 :: yr) ++ ['\n']).getLast? = some '\n'
          rw [List.getLast?_concat]
        rw [if_neg (by simp [hend])]
        exact splitLines_join (y0 :: yr) (by simp)
          (fun y hy => h y (List.mem_append_left _ hy))
    · rw [List.getLast?_concat, if_neg (by simpa using hz)]
      have hcode : List.intercalate nlTok (ys ++ [z]) =
          (if ys = [] then [] else List.intercalate nlTok ys ++ nlTok) ++ z := by
        by_cases hys : ys = []
        · subst hys
          simp [intercalate_singleton_list]
        · rw [if_neg hys, intercalate_concat nlTok z ys hys]
      have hzlast : z.getLast? ≠ some '\n' := by
        intro hlast
        have : '\n' ∈ z := by
          have := List.mem_of_mem_getLast? (l := z) (a := '\n')
          exact this hlast
        exact (h z (List.mem_append_right _ (List.mem_singleton_self z))).1 this
      have hcodelast : (List.intercalate nlTok (ys ++ [z])).getLast? = z.getLast? := by
        rw [hcode]
        exact List.getLast?_append_of_ne_nil _ hz
      have hcodene : List.intercalate nlTok (ys ++ [z]) ≠ [] := by
        rw [hcode]
        intro hcontra
        exact hz (List.append_eq_nil.mp hcontra).2
      rw [finalizeCode]
      rw [if_pos (by simp [hcodene, hcodelast, hzlast])]
      rw [splitLines_join (ys ++ [z]) (by simp) h]

/-! ### Generic fold helpers -/

lemma foldl_invariant {σ α : Type} (P : σ → Prop) (step : σ → α → σ) :
    ∀ (ls : List α) (st : σ), (∀ s l, l ∈ ls → P s → P (step s l)) → P st →
      P (ls.foldl step st) := by
  intro ls
  induction ls with
  | nil => intro st _ h; exact h
  | cons l rest ih =>
    intro st hstep h
    exact ih (step st l) (fun s x hx => hstep s x (List.mem_cons_of_mem _ hx))
      (hstep st l (List.mem_cons_self _ _) h)

end Hyperprose

namespace Hyperprose

/-! ### Shape facts about the per-line emissions -/

/-- Short name for the blank test `start >= end` of the body loop. -/
def isBlankL (l : Line) : Prop :=
  (content_bounds l.text).2 ≤ (content_bounds l.text).1

instance (l : Line) : Decidable (isBlankL l) := by
  unfold isBlankL; infer_instance

lemma sliceStr_cb_ne_nil {t : List Char}
    (h : (content_bounds t).1 < (content_bounds t).2) :
    sliceStr t (content_bounds t).1 (content_bounds t).2 ≠ [] := by
  obtain ⟨c, hc, -⟩ := sliceStr_cb_head t h
  intro hnil
  rw [hnil] at hc
  simp at hc

lemma noNL_indentRep (n : Nat) : '\n' ∉ indentRep n := by
  intro h
  have := List.eq_of_mem_replicate h
  simp at this

lemma getLast?_append_left_of_ne_nil {α : Type} {l₂ : List α} (l₁ : List α)
    (h : l₂ ≠ []) : (l₁ ++ l₂).getLast? = l₂.getLast? :=
  List.getLast?_append_of_ne_nil l₁ h

lemma noNL_append {a b : List Char} (ha : '\n' ∉ a) (hb : '\n' ∉ b) :
    '\n' ∉ a ++ b := by
  intro hm
  rcases List.mem_append.mp hm with h | h
  exacts [ha h, hb h]

lemma bodyGen_gen_line (lvl : Nat) (stk : List String) (ol : Nat) (l : Line) :
    (bodyGen lvl stk ol l).map.gen_line = ol := by
  unfold bodyGen
  dsimp only
  cases l.line_type <;> dsimp only <;> split_ifs <;> rfl

lemma bodyGen_noNL (lvl : Nat) (stk : List String) (ol : Nat) (l : Line)
    (h : '\n' ∉ l.text) : '\n' ∉ (bodyGen lvl stk ol l).line := by
  have htr : '\n' ∉ sliceStr l.text (content_bounds l.text).1 (content_bounds l.text).2 :=
    fun hm => h (mem_sliceStr hm)
  unfold bodyGen
  dsimp only
  cases l.line_type <;> dsimp only <;> split_ifs <;>
    first
      | exact List.not_mem_nil '\n'
      | exact noNL_append (noNL_indentRep _) htr
      | exact noNL_append (noNL_indentRep _) (by decide)
      | exact noNL_append
          (noNL_append (noNL_append (noNL_indentRep _) (by decide)) htr) (by decide)

lemma indentRep_noCR (n : Nat) : (indentRep n).getLast? ≠ some '\r' := by
  intro h
  have hmem := List.mem_of_mem_getLast? h
  have := List.eq_of_mem_replicate hmem
  simp at this

lemma getLast?_ne_cr_append {a b : List Char} (ha : a.getLast? ≠ some '\r')
    (hb : b.getLast? ≠ some '\r') : (a ++ b).getLast? ≠ some '\r' := by
  rw [List.getLast?_append]
  cases hb' : b.getLast? with
  | none => simpa using ha
  | some x => simpa [hb'] using hb

lemma bodyGen_noCR (lvl : Nat) (stk : List String) (ol : Nat) (l : Line) :
    (bodyGen lvl stk ol l).line.getLast? ≠ some '\r' := by
  unfold bodyGen
  dsimp only
  cases l.line_type <;> dsimp only <;> split_ifs <;> (try dsimp only) <;>
    first
      | decide
      | exact getLast?_ne_cr_append (indentRep_noCR _) (sliceStr_cb_getLast l.text)
      | exact getLast?_ne_cr_append (indentRep_noCR _) (by decide)
      | exact getLast?_ne_cr_append
          (getLast?_ne_cr_append
            (getLast?_ne_cr_append (indentRep_noCR _) (by decide))
            (sliceStr_cb_getLast l.text)) (by decide)

lemma bodyGen_blank_iff (lvl : Nat) (stk : List String) (ol : Nat) (l : Line) :
    (bodyGen lvl stk ol l).line = [] ↔ isBlankL l := by
  unfold bodyGen isBlankL
  dsimp only
  cases l.line_type <;> dsimp only <;> split_ifs with hb <;>
    first
      | exact iff_of_true rfl hb
      | exact iff_of_false
          (fun hc => sliceStr_cb_ne_nil (by omega) ((List.append_eq_nil.mp hc).2)) hb
      | exact iff_of_false
          (fun hc => absurd (List.append_eq_nil.mp hc).2 (by decide)) hb

lemma bodyStep_output (st : St) (l : Line) :
    (bodyStep st l).output =
      st.output ++ [(bodyGen st.level st.stack st.out_line l).line] := rfl

lemma bodyStep_mappings (st : St) (l : Line) :
    (bodyStep st l).mappings =
      st.mappings ++ [(bodyGen st.level st.stack st.out_line l).map] := rfl

lemma bodyStep_out_line (st : St) (l : Line) :
    (bodyStep st l).out_line = st.out_line + 1 := rfl

lemma leadStep_output (st : St) (l : Line) :
    (leadStep st l).output = st.output ++ [(leadGen st.out_line l).1] := rfl

lemma leadStep_mappings (st : St) (l : Line) :
    (leadStep st l).mappings = st.mappings ++ [(leadGen st.out_line l).2.1] := rfl

lemma leadGen_gen_line (ol : Nat) (l : Line) :
    (leadGen ol l).2.1.gen_line = ol := by
  unfold leadGen
  split <;> rfl

lemma leadGen_noNL (ol : Nat) (l : Line) (h : '\n' ∉ l.text) :
    '\n' ∉ (leadGen ol l).1 := by
  unfold leadGen
  split
  · exact fun hm => h (mem_sliceStr hm)
  · simp

lemma leadGen_noCR (ol : Nat) (l : Line) : (leadGen ol l).1.getLast? ≠ some '\r' := by
  unfold leadGen
  split
  · exact sliceStr_cb_getLast l.text
  · simp

end Hyperprose

namespace Hyperprose

/-! ### Facts about the signature emission -/

lemma noNL_intercalate {sep : List Char} (hsep : '\n' ∉ sep) :
    ∀ {xs : List (List Char)}, (∀ x ∈ xs, '\n' ∉ x) →
      '\n' ∉ List.intercalate sep xs := by
  intro xs
  induction xs with
  | nil => intro _; rw [intercalate_nil_list]; simp
  | cons a rest ih =>
    intro h
    cases rest with
    | nil =>
      rw [intercalate_singleton_list]
      exact h a (List.mem_singleton_self a)
    | cons b r2 =>
      rw [intercalate_cons₂]
      exact noNL_append
        (noNL_append (h a (List.mem_cons_self _ _)) hsep)
        (ih (fun x hx => h x (List.mem_cons_of_mem _ hx)))

lemma getLast?_append_right_ne_cr {X B : List Char} (hB : B ≠ [])
    (h : B.getLast? ≠ some '\r') : (X ++ B).getLast? ≠ some '\r' := by
  rw [List.getLast?_append_of_ne_nil X hB]
  exact h

/-- The signature emission appends exactly one line and one mapping. -/
lemma emitSignature_shape (dkw : List Char) (lines params : List Line)
    (bs : Nat) (st : St) (hdkw : '\n' ∉ dkw)
    (hp : ∀ p ∈ params, '\n' ∉ p.text) :
    ∃ s m, (emitSignature dkw lines params bs st).output = st.output ++ [s] ∧
      (emitSignature dkw lines params bs st).mappings = st.mappings ++ [m] ∧
      m.gen_line = st.out_line ∧
      (emitSignature dkw lines params bs st).out_line = st.out_line + 1 ∧
      (emitSignature dkw lines params bs st).level = st.level ∧
      (emitSignature dkw lines params bs st).stack = st.stack ∧
      '\n' ∉ s ∧ s.getLast? ≠ some '\r' ∧ s ≠ [] ∧
      ∃ rest, s = dkw ++ ' ' :: rest := by
  cases params with
  | nil =>
    refine ⟨dkw ++ " __hyper_template__():".toList, _, rfl, rfl, rfl, rfl, rfl, rfl,
      ?_, ?_, ?_, ?_⟩
    · exact noNL_append hdkw (by decide)
    · exact getLast?_append_right_ne_cr (by decide) (by decide)
    · intro hc
      exact absurd (List.append_eq_nil.mp hc).2 (by decide)
    · exact ⟨"__hyper_template__():".toList, rfl⟩
  | cons first prest =>
    have hstrs : ∀ x ∈ (first :: prest).map (fun p =>
        sliceStr p.text (content_bounds p.text).1 (content_bounds p.text).2),
        '\n' ∉ x := by
      intro x hx
      obtain ⟨p, hpmem, hpx⟩ := List.mem_map.mp hx
      exact hpx ▸ (fun hm => hp p hpmem (mem_sliceStr hm))
    refine ⟨dkw ++ " __hyper_template__(".toList ++
      List.intercalate ", ".toList ((first :: prest).map (fun p =>
        sliceStr p.text (content_bounds p.text).1 (content_bounds p.text).2)) ++
      "):".toList, _, rfl, rfl, rfl, rfl, rfl, rfl, ?_, ?_, ?_, ?_⟩
    · exact noNL_append
        (noNL_append (noNL_append hdkw (by decide))
          (noNL_intercalate (by decide) hstrs)) (by decide)
    · exact getLast?_append_right_ne_cr (by decide) (by decide)
    · intro hc
      exact absurd (List.append_eq_nil.mp hc).2 (by decide)
    · refine ⟨"__hyper_template__(".toList ++
        List.intercalate ", ".toList ((first :: prest).map (fun p =>
          sliceStr p.text (content_bounds p.text).1 (content_bounds p.text).2)) ++
        "):".toList, ?_⟩
      simp [List.append_assoc]

/-! ### The mapping and output invariants of the generation pass -/

/-- Every generated line is newline-free and does not end in a carriage
return. -/
def outWF (st : St) : Prop := ∀ o ∈ st.output, '\n' ∉ o ∧ o.getLast? ≠ some '\r'

/-- The mapping accumulator stays aligned with the output accumulator:
`gen_line` values are exactly `0, 1, ...` and `out_line` counts the lines. -/
def mapOK (st : St) : Prop :=
  st.mappings.map (fun m => m.gen_line) = List.range st.out_line ∧
  st.out_line = st.output.length

lemma mapOK_append {st st' : St} {x : List Char} {m : SourceMapping}
    (hout : st'.output = st.output ++ [x])
    (hmap : st'.mappings = st.mappings ++ [m])
    (hol : st'.out_line = st.out_line + 1)
    (hm : m.gen_line = st.out_line) (h : mapOK st) : mapOK st' := by
  obtain ⟨h1, h2⟩ := h
  constructor
  · rw [hmap, hol]
    simp only [List.map_append, List.map_cons, List.map_nil, h1, hm]
    rw [List.range_succ]
  · rw [hol, hout, h2]
    simp

lemma leadStep_mapOK {st : St} {l : Line} (h : mapOK st) : mapOK (leadStep st l) :=
  mapOK_append (leadStep_output st l) (leadStep_mappings st l) rfl
    (leadGen_gen_line st.out_line l) h

lemma bodyStep_mapOK {st : St} {l : Line} (h : mapOK st) : mapOK (bodyStep st l) :=
  mapOK_append (bodyStep_output st l) (bodyStep_mappings st l) rfl
    (bodyGen_gen_line st.level st.stack st.out_line l) h

lemma outWF_append {st : St} {x : List Char}
    (hx : '\n' ∉ x ∧ x.getLast? ≠ some '\r') (h : outWF st) :
    ∀ o ∈ st.output ++ [x], '\n' ∉ o ∧ o.getLast? ≠ some '\r' := by
  intro o ho
  rcases List.mem_append.mp ho with h1 | h1
  · exact h o h1
  · rw [List.mem_singleton.mp h1]
    exact hx

lemma leadStep_outWF {st : St} {l : Line} (hl : '\n' ∉ l.text) (h : outWF st) :
    outWF (leadStep st l) :=
  outWF_append ⟨leadGen_noNL st.out_line l hl, leadGen_noCR st.out_line l⟩ h

lemma bodyStep_outWF {st : St} {l : Line} (hl : '\n' ∉ l.text) (h : outWF st) :
    outWF (bodyStep st l) :=
  outWF_append ⟨bodyGen_noNL st.level st.stack st.out_line l hl,
    bodyGen_noCR st.level st.stack st.out_line l⟩ h

/-! ### Membership facts for `find_structure` -/

lemma findGo_mem :
    ∀ (ls : List Line) (sp : Bool) (i : Nat) (L P : List Line) (bs : Nat),
      (∀ l ∈ (findGo sp i L P bs ls).1, l ∈ L ∨ l ∈ ls) ∧
      (∀ l ∈ (findGo sp i L P bs ls).2.1, l ∈ P ∨ l ∈ ls) := by
  intro ls
  induction ls with
  | nil =>
    intro sp i L P bs
    constructor
    · intro l hl; exact Or.inl hl
    · intro l hl; exact Or.inl hl
  | cons line rest ih =>
    intro sp i L P bs
    unfold findGo
    dsimp only
    split_ifs with h1 h2 h3
    · constructor
      · intro l hl
        rcases (ih _ _ _ _ _).1 l hl with h | h
        · rcases List.mem_append.mp h with h | h
          · exact Or.inl h
          · exact Or.inr (List.mem_cons.mpr (Or.inl (List.mem_singleton.mp h)))
        · exact Or.inr (List.mem_cons_of_mem _ h)
      · intro l hl
        rcases (ih _ _ _ _ _).2 l hl with h | h
        · exact Or.inl h
        · exact Or.inr (List.mem_cons_of_mem _ h)
    · constructor
      · intro l hl
        rcases (ih _ _ _ _ _).1 l hl with h | h
        · rcases List.mem_append.mp h with h | h
          · exact Or.inl h
          · exact Or.inr (List.mem_cons.mpr (Or.inl (List.mem_singleton.mp h)))
        · exact Or.inr (List.mem_cons_of_mem _ h)
      · intro l hl
        rcases (ih _ _ _ _ _).2 l hl with h | h
        · exact Or.inl h
        · exact Or.inr (List.mem_cons_of_mem _ h)
    · constructor
      · intro l hl
        rcases (ih _ _ _ _ _).1 l hl with h | h
        · exact Or.inl h
        · exact Or.inr (List.mem_cons_of_mem _ h)
      · intro l hl
        rcases (ih _ _ _ _ _).2 l hl with h | h
        · rcases List.mem_append.mp h with h | h
          · exact Or.inl h
          · exact Or.inr (List.mem_cons.mpr (Or.inl (List.mem_singleton.mp h)))
        · exact Or.inr (List.mem_cons_of_mem _ h)
    · constructor
      · intro l hl; exact Or.inl hl
      · intro l hl; exact Or.inl hl

lemma find_structure_leading_mem {lines : List Line} {l : Line}
    (h : l ∈ (find_structure lines).1) : l ∈ lines := by
  rcases (findGo_mem lines false 0 [] [] 0).1 l h with h1 | h1
  · simp at h1
  · exact h1

lemma find_structure_params_mem {lines : List Line} {l : Line}
    (h : l ∈ (find_structure lines).2.1) : l ∈ lines := by
  rcases (findGo_mem lines false 0 [] [] 0).2 l h with h1 | h1
  · simp at h1
  · exact h1

end Hyperprose

namespace Hyperprose

/-! ### Staged view of `transpile_ext` -/

/-- The chosen function keyword. -/
def defKw (source : List Char) : List Char :=
  if has_await (lex source) || has_async_construct (lex source)
  then "async def".toList else "def".toList

/-- The state after emitting the leading content. -/
def stOne (source : List Char) (b : Bool) : St :=
  (find_structure (lex source)).1.foldl leadStep
    ⟨[], [], if b then some [] else none, 0, 1, []⟩

/-- The state after emitting the signature. -/
def stTwo (source : List Char) (b : Bool) : St :=
  emitSignature (defKw source) (lex source) (find_structure (lex source)).2.1
    (find_structure (lex source)).2.2 (stOne source b)

/-- The state after the body loop. -/
def stThree (source : List Char) (b : Bool) : St :=
  ((lex source).drop (find_structure (lex source)).2.2).foldl bodyStep
    (stTwo source b)

lemma transpile_ext_eq (source : List Char) (b : Bool) :
    transpile_ext source b =
      ⟨finalizeCode (stThree source b).output, (stThree source b).mappings,
        (stThree source b).pieces⟩ := rfl

lemma defKw_noNL (source : List Char) : '\n' ∉ defKw source := by
  unfold defKw
  split_ifs <;> decide

/-- Number of lines of a text, by the `str::lines` convention. -/
def countLines (t : List Char) : Nat := (splitLines t).length

/-- Whether the last source line lies in the body and is blank (in which
case the last generated line is an empty line). -/
def endsBlankSrc (source : List Char) : Bool :=
  match (lex source).getLast? with
  | none => false
  | some l =>
    decide ((find_structure (lex source)).2.2 < (lex source).length) &&
      decide (isBlankL l)

lemma stOne_inv (source : List Char) (b : Bool) :
    mapOK (stOne source b) ∧ outWF (stOne source b) := by
  unfold stOne
  apply foldl_invariant (fun st => mapOK st ∧ outWF st)
  · intro s l hl hls
    exact ⟨leadStep_mapOK hls.1,
      leadStep_outWF (noNL_lex (find_structure_leading_mem hl)) hls.2⟩
  · constructor
    · constructor <;> simp
    · intro o ho
      simp at ho

lemma stTwo_spec (source : List Char) (b : Bool) :
    ∃ s m, (stTwo source b).output = (stOne source b).output ++ [s] ∧
      (stTwo source b).mappings = (stOne source b).mappings ++ [m] ∧
      m.gen_line = (stOne source b).out_line ∧
      (stTwo source b).out_line = (stOne source b).out_line + 1 ∧
      (stTwo source b).level = (stOne source b).level ∧
      (stTwo source b).stack = (stOne source b).stack ∧
      '\n' ∉ s ∧ s.getLast? ≠ some '\r' ∧ s ≠ [] ∧
      ∃ rest, s = defKw source ++ ' ' :: rest := by
  unfold stTwo
  exact emitSignature_shape (defKw source) (lex source) _ _ (stOne source b)
    (defKw_noNL source)
    (fun p hp => noNL_lex (find_structure_params_mem hp))

lemma stTwo_inv (source : List Char) (b : Bool) :
    mapOK (stTwo source b) ∧ outWF (stTwo source b) := by
  obtain ⟨h1, h2⟩ := stOne_inv source b
  obtain ⟨s, m, hout, hmap, hgl, hol, -, -, hnl, hcr, -, -⟩ := stTwo_spec source b
  exact ⟨mapOK_append hout hmap hol hgl h1,
    fun o ho => outWF_append ⟨hnl, hcr⟩ h2 o (hout ▸ ho)⟩

lemma stThree_inv (source : List Char) (b : Bool) :
    mapOK (stThree source b) ∧ outWF (stThree source b) := by
  unfold stThree
  apply foldl_invariant (fun st => mapOK st ∧ outWF st)
  · intro s l hl hls
    exact ⟨bodyStep_mapOK hls.1,
      bodyStep_outWF (noNL_lex (List.drop_subset _ _ hl)) hls.2⟩
  · exact stTwo_inv source b

lemma foldl_bodyStep_getLast_blank :
    ∀ (ls : List Line) (st : St) (z : Line), ls.getLast? = some z →
      ((ls.foldl bodyStep st).output.getLast? = some [] ↔ isBlankL z) := by
  intro ls
  induction ls with
  | nil => intro st z h; simp at h
  | cons l rest ih =>
    intro st z h
    cases rest with
    | nil =>
      simp only [List.getLast?_singleton, Option.some_inj] at h
      rw [List.foldl_cons, List.foldl_nil, bodyStep_output, List.getLast?_concat]
      simp only [Option.some_inj]
      rw [h]
      exact bodyGen_blank_iff st.level st.stack st.out_line z
    | cons l2 r2 =>
      rw [List.getLast?_cons_cons] at h
      rw [List.foldl_cons]
      exact ih (bodyStep st l) z h

lemma stThree_lastBlank (source : List Char) (b : Bool) :
    ((stThree source b).output.getLast? = some [] ↔ endsBlankSrc source = true) := by
  by_cases hls : (lex source).drop (find_structure (lex source)).2.2 = []
  · have hst : stThree source b = stTwo source b := by
      unfold stThree
      rw [hls, List.foldl_nil]
    obtain ⟨s, m, hout, -, -, -, -, -, -, -, hsne, -⟩ := stTwo_spec source b
    rw [hst, hout, List.getLast?_concat]
    constructor
    · intro hc
      exact absurd (Option.some_inj.mp hc) hsne
    · intro hc
      exfalso
      have hle := List.drop_eq_nil_iff.mp hls
      unfold endsBlankSrc at hc
      cases hlast : (lex source).getLast? with
      | none => rw [hlast] at hc; simp at hc
      | some z =>
        rw [hlast] at hc
        simp only [Bool.and_eq_true, decide_eq_true_eq] at hc
        omega
  · have hne : (lex source).drop (find_structure (lex source)).2.2 ≠ [] := hls
    obtain ⟨z, hz⟩ := Option.isSome_iff_exists.mp
      (List.getLast?_isSome.mpr hne)
    have hlinesLast : (lex source).getLast? = some z := by
      rw [← getLast?_drop_ne_nil (lex source) (find_structure (lex source)).2.2 hne]
      exact hz
    have hlt : (find_structure (lex source)).2.2 < (lex source).length := by
      by_contra hcon
      exact hne (List.drop_eq_nil_iff.mpr (by omega))
    unfold stThree
    rw [foldl_bodyStep_getLast_blank _ _ z hz]
    unfold endsBlankSrc
    rw [hlinesLast]
    simp [hlt]

end Hyperprose

namespace Hyperprose

/-- C1 (corrected): for every input, the `gen_line` fields of
`source_mappings` are exactly their own indices `0..n-1`; the number of
mappings equals the number of newline-separated lines of the generated code
except when the final generated line is blank, in which case there is one
more mapping than generated lines (the trailing blank line is absorbed by
the preceding line's terminator when the code is joined). -/
theorem c1_mappings_amended (source : List Char) (b : Bool) :
    (transpile_ext source b).source_mappings.map (fun m => m.gen_line) =
      List.range (transpile_ext source b).source_mappings.length ∧
    (transpile_ext source b).source_mappings.length =
      countLines (transpile_ext source b).python_code +
        (if endsBlankSrc source then 1 else 0) := by
  obtain ⟨⟨hmap, hol⟩, hwf⟩ := stThree_inv source b
  rw [transpile_ext_eq]
  dsimp only
  have hlen : (stThree source b).mappings.length = (stThree source b).out_line := by
    have h := congrArg List.length hmap
    simpa using h
  constructor
  · rw [hlen]
    exact hmap
  · rw [countLines, splitLines_finalize _ (fun l hl => hwf l hl)]
    by_cases hb : (stThree source b).output.getLast? = some []
    · rw [if_pos hb]
      have hebs : endsBlankSrc source = true := (stThree_lastBlank source b).mp hb
      rw [hebs, if_pos rfl]
      have houtne : (stThree source b).output ≠ [] := by
        intro hc
        rw [hc] at hb
        simp at hb
      have hpos : 1 ≤ (stThree source b).output.length := List.length_pos.mpr houtne
      rw [List.length_dropLast, hlen, hol]
      omega
    · rw [if_neg hb]
      have hebs : endsBlankSrc source = false := by
        rcases hx : endsBlankSrc source with _ | _
        · rfl
        · exact absurd ((stThree_lastBlank source b).mpr hx) hb
      rw [hebs]
      simp only [Bool.false_eq_true, if_false, Nat.add_zero]
      rw [hlen, hol]

/-- C1 (counterexample): on the input `"x\n\n"` the transpiler records three
mappings, while the generated code `"def __hyper_template__():\n    x\n"`
has only two newline-separated lines. -/
theorem c1_counterexample :
    (transpile "x\n\n".toList).source_mappings.length = 3 ∧
    countLines (transpile "x\n\n".toList).python_code = 2 ∧
    (transpile "x\n\n".toList).source_mappings.length ≠
      countLines (transpile "x\n\n".toList).python_code := by
  refine ⟨?_, ?_, ?_⟩ <;> decide

end Hyperprose

namespace Hyperprose

/-- C7 (counterexample): for the empty input the generated text is not
empty — it is the zero-argument function header line. -/
theorem c7_counterexample :
    (transpile []).python_code ≠ [] ∧
    (transpile []).python_code = "def __hyper_template__():\n".toList := by
  constructor <;> decide

/-- C7 (amended): for the empty input string, `transpile` returns a result
whose generated text is exactly the zero-argument function header (plus its
terminating newline), with a single source mapping and no injection
pieces. -/
theorem c7_empty_amended :
    (transpile []).python_code = "def __hyper_template__():\n".toList ∧
    (transpile []).source_mappings = [⟨0, 0, 0, 0⟩] ∧
    (transpile []).python_pieces = none := by
  refine ⟨?_, ?_, ?_⟩ <;> decide

end Hyperprose

namespace Hyperprose

/-! ### Column bookkeeping (claim C3) -/

lemma takeWhile_space_replicate (n : Nat) (post : List Char)
    (h : post.takeWhile (fun c => c = ' ') = []) :
    ((List.replicate n ' ' ++ post).takeWhile (fun c => c = ' ')).length = n := by
  induction n with
  | zero => simpa using congrArg List.length h
  | succ n ih =>
    rw [List.replicate_succ, List.cons_append, List.takeWhile_cons]
    simp only [decide_True, if_true]
    simpa using ih

lemma takeWhile_space_nil_of_head {post : List Char} {c : Char}
    (hc : post.head? = some c) (hcs : c ≠ ' ') :
    post.takeWhile (fun x => x = ' ') = [] := by
  cases post with
  | nil => rfl
  | cons a r =>
    simp only [List.head?_cons, Option.some_inj] at hc
    subst hc
    rw [List.takeWhile_cons, if_neg (by simpa using hcs)]

lemma indent_slice_takeWhile {k : Nat} {t : List Char}
    (hlt : (content_bounds t).1 < (content_bounds t).2) :
    ((indentRep k ++ sliceStr t (content_bounds t).1 (content_bounds t).2).takeWhile
      (fun c => c = ' ')).length = 4 * k := by
  obtain ⟨c, hc, hcs⟩ := sliceStr_cb_head t hlt
  have hcs' : c ≠ ' ' := by
    intro he
    rw [he] at hcs
    simp [isSpTab] at hcs
  exact takeWhile_space_replicate (4 * k) _ (takeWhile_space_nil_of_head hc hcs')

lemma indent_html_takeWhile {k : Nat} {t : List Char} :
    ((indentRep k ++ "t\"\"\"".toList ++
      sliceStr t (content_bounds t).1 (content_bounds t).2 ++
      "\"\"\"".toList).takeWhile (fun c => c = ' ')).length = 4 * k := by
  have hassoc : indentRep k ++ "t\"\"\"".toList ++
      sliceStr t (content_bounds t).1 (content_bounds t).2 ++ "\"\"\"".toList =
      List.replicate (4 * k) ' ' ++ ("t\"\"\"".toList ++
        (sliceStr t (content_bounds t).1 (content_bounds t).2 ++ "\"\"\"".toList)) := by
    simp [indentRep, List.append_assoc]
  rw [hassoc]
  exact takeWhile_space_replicate (4 * k) _ rfl

/-- C3 (corrected): for a non-blank body line that is not a `BlockEnd`, the
recorded mapping's `gen_col` equals the emitted indentation width (the count
of leading spaces of the generated line), plus the fixed 4-character
template-literal delimiter offset for `Markup` (Html) lines, and `src_col`
equals the count of leading space/tab characters of the source line.  For a
`BlockEnd` line the emitted no-op is indented, but the mapping records
`gen_col = 0` and `src_col = 0`. -/
theorem c3_columns_amended (st : St) (l : Line) (hnb : ¬ isBlankL l) :
    ∃ x m, (bodyStep st l).output = st.output ++ [x] ∧
      (bodyStep st l).mappings = st.mappings ++ [m] ∧
      (l.line_type ≠ LineType.End →
        m.gen_col = (x.takeWhile (fun c => c = ' ')).length +
          (if l.line_type = LineType.Html then 4 else 0) ∧
        m.src_col = (l.text.takeWhile isSpTab).length) ∧
      (l.line_type = LineType.End → m.gen_col = 0 ∧ m.src_col = 0) := by
  have hlt : (content_bounds l.text).1 < (content_bounds l.text).2 := by
    unfold isBlankL at hnb
    omega
  refine ⟨(bodyGen st.level st.stack st.out_line l).line,
    (bodyGen st.level st.stack st.out_line l).map,
    bodyStep_output st l, bodyStep_mappings st l, ?_, ?_⟩
  · intro hne
    unfold bodyGen
    dsimp only
    rw [if_neg (by omega)]
    cases hty : l.line_type with
    | End => exact absurd hty hne
    | Control =>
      dsimp only
      split_ifs <;>
        first
          | contradiction
          | (refine ⟨?_, rfl⟩; rw [indent_slice_takeWhile hlt]; simp)
    | Html =>
      dsimp only
      refine ⟨?_, rfl⟩
      rw [indent_html_takeWhile]
      simp
    | Python =>
      dsimp only
      refine ⟨?_, rfl⟩
      rw [indent_slice_takeWhile hlt]
      simp
  · intro he
    unfold bodyGen
    dsimp only
    rw [if_neg (by omega)]
    cases hty : l.line_type with
    | End => exact ⟨rfl, rfl⟩
    | Control => rw [hty] at he; exact absurd he (by decide)
    | Html => rw [hty] at he; exact absurd he (by decide)
    | Python => rw [hty] at he; exact absurd he (by decide)

/-- C3 (counterexample): on the input `"  end"` the single body line is a
`BlockEnd`; the emitted no-op line `"    pass"` has indentation width 4 and
the source line's first non-whitespace column is 2, yet the recorded mapping
is `⟨1, 0, 0, 0⟩`. -/
theorem c3_counterexample :
    (transpile "  end".toList).source_mappings.get? 1 = some ⟨1, 0, 0, 0⟩ ∧
    (splitLines (transpile "  end".toList).python_code).get? 1 =
      some "    pass".toList ∧
    (("    pass".toList.takeWhile (fun c => c = ' ')).length = 4 ∧
      ("  end".toList.takeWhile isSpTab).length = 2) ∧
    ¬ (0 = 4 ∧ 0 = 2) := by
  refine ⟨?_, ?_, ⟨?_, ?_⟩, ?_⟩ <;> decide

/-- Witness for `c3_columns_amended` at a concrete Html body line. -/
theorem c3_columns_witness :
    (¬ isBlankL ⟨LineType.Html, "<a>".toList, 0, 0⟩) ∧
    (∃ x m,
      (bodyStep ⟨[], [], none, 0, 1, []⟩ ⟨LineType.Html, "<a>".toList, 0, 0⟩).output =
        ([] : List (List Char)) ++ [x] ∧
      (bodyStep ⟨[], [], none, 0, 1, []⟩ ⟨LineType.Html, "<a>".toList, 0, 0⟩).mappings =
        ([] : List SourceMapping) ++ [m] ∧
      ((⟨LineType.Html, "<a>".toList, 0, 0⟩ : Line).line_type ≠ LineType.End →
        m.gen_col = (x.takeWhile (fun c => c = ' ')).length +
          (if (⟨LineType.Html, "<a>".toList, 0, 0⟩ : Line).line_type = LineType.Html
           then 4 else 0) ∧
        m.src_col = (("<a>".toList).takeWhile isSpTab).length) ∧
      ((⟨LineType.Html, "<a>".toList, 0, 0⟩ : Line).line_type = LineType.End →
        m.gen_col = 0 ∧ m.src_col = 0)) :=
  ⟨by decide, c3_columns_amended ⟨[], [], none, 0, 1, []⟩
    ⟨LineType.Html, "<a>".toList, 0, 0⟩ (by decide)⟩

end Hyperprose

namespace Hyperprose

/-! ### The `BlockEnd` transition (claim C5) -/

lemma dropWhile_length_le {p : String → Bool} (l : List String) :
    (l.dropWhile p).length ≤ l.length :=
  (List.dropWhile_suffix p).sublist.length_le

lemma popCases_eq (s : List String) (lvl : Nat) :
    popCases s lvl = (s.dropWhile (fun t => t = "case"),
      lvl - (s.length - (s.dropWhile (fun t => t = "case")).length)) := by
  induction s generalizing lvl with
  | nil => simp [popCases]
  | cons t rest ih =>
    unfold popCases
    by_cases ht : t = "case"
    · rw [if_pos ht, ih]
      have hle := dropWhile_length_le (p := fun t => t = "case") rest
      rw [List.dropWhile_cons, if_pos (by simpa using ht)]
      refine Prod.ext rfl ?_
      simp only [List.length_cons]
      omega
    · rw [if_neg ht]
      rw [List.dropWhile_cons, if_neg (by simpa using ht)]
      simp

lemma getLast?_cons_ne_nil {α : Type} {c : α} {r : List α} (h : r ≠ []) :
    (c :: r).getLast? = r.getLast? := by
  cases r with
  | nil => exact absurd rfl h
  | cons x xs => rw [List.getLast?_cons_cons]

lemma trimEndCRLF_eq_self {t : List Char}
    (h : ∀ c, t.getLast? = some c → isCRLFch c = false) : trimEndCRLF t = t := by
  induction t with
  | nil => rfl
  | cons c r ih =>
    by_cases hr : r = []
    · subst hr
      rw [trimEndCRLF_cons_nil (r := []) rfl, if_neg (by simp [h c rfl])]
    · have hr' := ih (fun x hx => h x (by rw [getLast?_cons_ne_nil hr]; exact hx))
      obtain ⟨x, xs, hxs⟩ := List.exists_cons_of_ne_nil hr
      rw [trimEndCRLF_cons_cons (hr'.trans hxs), ← hxs]

lemma isEndLine_shape {t : List Char} (h : isEndLine t = true) :
    ∃ rest2, dropSpTab t = 'e' :: 'n' :: 'd' :: rest2 ∧ rest2.all isSpTab = true := by
  unfold isEndLine at h
  split at h
  · rename_i rest2 heq
    exact ⟨rest2, heq, h⟩
  · simp at h

/-- An `END_LINE` match is never blank: its `end` keyword lies between the
content bounds. -/
lemma isEndLine_nonblank {lt : LineType} {t : List Char} {ln bo : Nat}
    (h : isEndLine t = true) : ¬ isBlankL (⟨lt, t, ln, bo⟩ : Line) := by
  obtain ⟨rest2, hd, hall⟩ := isEndLine_shape h
  have hsplit : t = t.takeWhile isSpTab ++ 'e' :: 'n' :: 'd' :: rest2 := by
    conv_lhs => rw [← List.takeWhile_append_dropWhile (p := isSpTab) (l := t)]
    rw [show t.dropWhile isSpTab = dropSpTab t from rfl, hd]
  have hlast : ∀ c', t.getLast? = some c' → isCRLFch c' = false := by
    intro c' hc'
    rw [hsplit, List.getLast?_append_of_ne_nil _ (by simp)] at hc'
    rcases hrest : rest2 with _ | ⟨y, ys⟩
    · rw [hrest] at hc'
      simp only [List.getLast?_cons_cons, List.getLast?_singleton,
        Option.some_inj] at hc'
      subst hc'
      decide
    · rw [hrest] at hc'
      rw [List.getLast?_cons_cons, List.getLast?_cons_cons,
        getLast?_cons_ne_nil (by simp)] at hc'
      have hmem := List.mem_of_mem_getLast? hc'
      have hsp : isSpTab c' = true := by
        rw [hrest] at hall
        exact List.all_eq_true.mp hall c' hmem
      exact isSpTab_not_crlf hsp
  have htrim : trimEndCRLF t = t := trimEndCRLF_eq_self hlast
  unfold isBlankL content_bounds
  dsimp only
  rw [htrim]
  have hlen : t.length = (t.takeWhile isSpTab).length + (3 + rest2.length) := by
    conv_lhs => rw [hsplit]
    simp only [List.length_append, List.length_cons]
    omega
  omega

/-- The stack left after popping the trailing `case` tags on a `BlockEnd`
(first the `case` run, then one more entry; popping an empty stack is a
no-op). -/
def endRest (stack : List String) : List String :=
  stack.dropWhile (fun t => t = "case")

/-- The resulting nesting level of a `BlockEnd`: one decrement per popped
`case`, one more if a block entry was popped, floored at 1 (`Nat`
subtraction is itself saturating). -/
def endLevel (stack : List String) (level : Nat) : Nat :=
  Nat.max ((level - (stack.length - (endRest stack).length)) -
    (if (endRest stack).isEmpty then 0 else 1)) 1

/-- C5 (confirmed): a `BlockEnd` body line pops all trailing `case` tags
(one level decrement per pop), then pops exactly one more stack entry if any
remains (one more decrement; popping an empty stack is a no-op), floors the
level at 1, and emits exactly one `pass` no-op line indented at the
resulting level, with one mapping and one (byte-empty) injection piece. -/
theorem c5_blockend (st : St) (l : Line) (h1 : l.line_type = LineType.End)
    (h2 : isEndLine l.text = true) :
    bodyStep st l =
      ⟨st.output ++ [indentRep (endLevel st.stack st.level) ++ "pass".toList],
        st.mappings ++ [⟨st.out_line, 0, l.line_number, 0⟩],
        st.pieces.map (fun ps => ps ++
          [⟨indentRep (endLevel st.stack st.level) ++ "pass\n".toList, [],
            l.byte_offset, l.byte_offset⟩]),
        st.out_line + 1, endLevel st.stack st.level, (endRest st.stack).drop 1⟩ := by
  rcases l with ⟨lt, tx, ln, bo⟩
  cases h1
  have hnb := @isEndLine_nonblank LineType.End tx ln bo h2
  unfold isBlankL at hnb
  dsimp only at hnb
  unfold bodyStep bodyGen endLevel endRest
  dsimp only
  rw [if_neg (by omega)]
  rw [popCases_eq]
  dsimp only
  by_cases hemp : (st.stack.dropWhile (fun t => t = "case")).isEmpty = true
  · rw [if_pos hemp, if_pos hemp, if_pos hemp]
    have hnil : st.stack.dropWhile (fun t => t = "case") = [] := by
      simpa using hemp
    rw [hnil]
    rfl
  · rw [if_neg hemp, if_neg hemp, if_neg hemp]
    rw [List.drop_one]

/-- Witness for `c5_blockend` at a concrete state and `end` line. -/
theorem c5_blockend_witness :
    ((⟨LineType.End, "end".toList, 7, 42⟩ : Line).line_type = LineType.End ∧
      isEndLine "end".toList = true) ∧
    bodyStep ⟨[], [], some [], 5, 3, ["case", "block"]⟩
        ⟨LineType.End, "end".toList, 7, 42⟩ =
      ⟨[] ++ [indentRep (endLevel ["case", "block"] 3) ++ "pass".toList],
        [] ++ [⟨5, 0, 7, 0⟩],
        (some []).map (fun ps => ps ++
          [⟨indentRep (endLevel ["case", "block"] 3) ++ "pass\n".toList, [], 42, 42⟩]),
        5 + 1, endLevel ["case", "block"] 3, (endRest ["case", "block"]).drop 1⟩ :=
  ⟨⟨rfl, by decide⟩,
    c5_blockend ⟨[], [], some [], 5, 3, ["case", "block"]⟩
      ⟨LineType.End, "end".toList, 7, 42⟩ rfl (by decide)⟩

end Hyperprose

namespace Hyperprose

/-! ### The `case` header transition (claim C6) -/

/-- The emission level of a `case` header: auto-close a previous `case`
clause first. -/
def caseLevel (stack : List String) (level : Nat) : Nat :=
  if stack.head? = some "case" then level - 1 else level

/-- The stack after a `case` header: pop a previous `case` tag, then push a
new one. -/
def caseStack (stack : List String) : List String :=
  "case" :: (if stack.head? = some "case" then stack.tail else stack)

/-- C6 (amended, for `case` headers without an `async` prefix): if the top
of the stack is a `case` tag it is popped and the level decremented before
emission; the line is emitted at the resulting level, then `case` is pushed
and the level incremented. -/
theorem c6_case_amended (st : St) (l : Line)
    (h1 : l.line_type = LineType.Control) (h2 : ¬ isBlankL l)
    (h3 : "case".toList.isPrefixOf
      (sliceStr l.text (content_bounds l.text).1 (content_bounds l.text).2) = true) :
    bodyStep st l =
      ⟨st.output ++ [indentRep (caseLevel st.stack st.level) ++
          sliceStr l.text (content_bounds l.text).1 (content_bounds l.text).2],
        st.mappings ++ [⟨st.out_line, 4 * caseLevel st.stack st.level,
          l.line_number, (content_bounds l.text).1⟩],
        st.pieces.map (fun ps => ps ++ [⟨indentRep (caseLevel st.stack st.level),
          nlTok, l.byte_offset + (content_bounds l.text).1,
          l.byte_offset + (content_bounds l.text).2⟩]),
        st.out_line + 1, caseLevel st.stack st.level + 1, caseStack st.stack⟩ := by
  rcases l with ⟨lt, tx, ln, bo⟩
  cases h1
  unfold isBlankL at h2
  dsimp only at h2 h3
  have hded : ((["else", "elif", "except", "finally"].map String.toList).any
      (fun kw => kw.isPrefixOf
        (sliceStr tx (content_bounds tx).1 (content_bounds tx).2))) = false := by
    obtain ⟨tl, htl⟩ := List.isPrefixOf_iff_prefix.mp h3
    rw [← htl]
    simp [List.isPrefixOf]
  unfold bodyStep bodyGen caseLevel caseStack
  dsimp only
  rw [if_neg (by omega), if_neg (by rw [hded]; simp), if_pos h3]

/-- C6 (counterexample): `"async case x:"` and `"async case y:"` are both
classified as `ControlHeader` lines whose keyword (after the `async`
modifier) is `case`, yet with no intervening end-marker the second is
emitted one indentation level deeper than the first, not at the same
level. -/
theorem c6_counterexample :
    (transpile "async case x:\nasync case y:\n".toList).python_code =
      "def __hyper_template__():\n    async case x:\n        async case y:\n".toList ∧
    classify_line "async case x:".toList = LineType.Control ∧
    classify_line "async case y:".toList = LineType.Control ∧
    "case".toList.isPrefixOf ((rustTrim "async case x:".toList).drop 6) = true ∧
    ((splitLines (transpile "async case x:\nasync case y:\n".toList).python_code).map
      (fun ln => (ln.takeWhile (fun c => c = ' ')).length)) = [0, 4, 8] := by
  refine ⟨?_, ?_, ?_, ?_, ?_⟩ <;> decide

/-- Witness for `c6_case_amended` at a concrete state with an open `case`
clause on the stack. -/
theorem c6_case_witness :
    ((⟨LineType.Control, "case 2:".toList, 5, 10⟩ : Line).line_type =
        LineType.Control ∧
      ¬ isBlankL ⟨LineType.Control, "case 2:".toList, 5, 10⟩ ∧
      "case".toList.isPrefixOf (sliceStr "case 2:".toList
        (content_bounds "case 2:".toList).1
        (content_bounds "case 2:".toList).2) = true) ∧
    bodyStep ⟨[], [], none, 3, 2, ["case"]⟩
        ⟨LineType.Control, "case 2:".toList, 5, 10⟩ =
      ⟨[] ++ [indentRep (caseLevel ["case"] 2) ++
          sliceStr "case 2:".toList (content_bounds "case 2:".toList).1
            (content_bounds "case 2:".toList).2],
        [] ++ [⟨3, 4 * caseLevel ["case"] 2, 5, (content_bounds "case 2:".toList).1⟩],
        Option.map (fun ps => ps ++ [⟨indentRep (caseLevel ["case"] 2), nlTok,
          10 + (content_bounds "case 2:".toList).1,
          10 + (content_bounds "case 2:".toList).2⟩]) none,
        3 + 1, caseLevel ["case"] 2 + 1, caseStack ["case"]⟩ :=
  ⟨⟨rfl, by decide, by decide⟩,
    c6_case_amended ⟨[], [], none, 3, 2, ["case"]⟩
      ⟨LineType.Control, "case 2:".toList, 5, 10⟩ rfl (by decide) (by decide)⟩

end Hyperprose

namespace Hyperprose

/-! ### The level/stack invariant (claim C10) -/

/-- `bodyGen` with the two `max 1` floors removed (the dedent print level
and the `BlockEnd` level floor); used to express whether the floors ever
change a value. -/
def bodyGenNoFloor (level : Nat) (stack : List String) (out_line : Nat)
    (line : Line) : Emit :=
  let start := (content_bounds line.text).1
  let «end» := (content_bounds line.text).2
  if «end» ≤ start then
    ⟨[], ⟨out_line, 0, line.line_number, 0⟩,
     ⟨[], nlTok, line.byte_offset, line.byte_offset⟩, level, stack⟩
  else
    let trimmed := sliceStr line.text start «end»
    let src_start := line.byte_offset + start
    let src_end := line.byte_offset + «end»
    match line.line_type with
    | LineType.Control =>
      let is_dedent :=
        (["else", "elif", "except", "finally"].map String.toList).any
          (fun kw => kw.isPrefixOf trimmed)
      let is_case := "case".toList.isPrefixOf trimmed
      if is_dedent then
        let print_level := level - 1
        ⟨indentRep print_level ++ trimmed,
         ⟨out_line, 4 * print_level, line.line_number, start⟩,
         ⟨indentRep print_level, nlTok, src_start, src_end⟩, level, stack⟩
      else if is_case then
        let stack1 := if stack.head? = some "case" then stack.tail else stack
        let level1 := if stack.head? = some "case" then level - 1 else level
        ⟨indentRep level1 ++ trimmed,
         ⟨out_line, 4 * level1, line.line_number, start⟩,
         ⟨indentRep level1, nlTok, src_start, src_end⟩,
         level1 + 1, "case" :: stack1⟩
      else
        ⟨indentRep level ++ trimmed,
         ⟨out_line, 4 * level, line.line_number, start⟩,
         ⟨indentRep level, nlTok, src_start, src_end⟩,
         level + 1,
         (if "match".toList.isPrefixOf trimmed then "match" else "block") :: stack⟩
    | LineType.End =>
      let p := popCases stack level
      let stack2 := if p.1.isEmpty then p.1 else p.1.tail
      let level2 := if p.1.isEmpty then p.2 else p.2 - 1
      let level3 := level2
      ⟨indentRep level3 ++ "pass".toList,
       ⟨out_line, 0, line.line_number, 0⟩,
       ⟨indentRep level3 ++ "pass\n".toList, [], line.byte_offset, line.byte_offset⟩,
       level3, stack2⟩
    | LineType.Html =>
      ⟨indentRep level ++ "t\"\"\"".toList ++ trimmed ++ "\"\"\"".toList,
       ⟨out_line, 4 * level + 4, line.line_number, start⟩,
       ⟨indentRep level ++ "t\"\"\"".toList, "\"\"\"\n".toList, src_start, src_end⟩,
       level, stack⟩
    | LineType.Python =>
      ⟨indentRep level ++ trimmed,
       ⟨out_line, 4 * level, line.line_number, start⟩,
       ⟨indentRep level, nlTok, src_start, src_end⟩, level, stack⟩

/-- The body loop iteration assembled from `bodyGenNoFloor`. -/
def bodyStepNoFloor (st : St) (line : Line) : St :=
  let g := bodyGenNoFloor st.level st.stack st.out_line line
  ⟨st.output ++ [g.line], st.mappings ++ [g.map],
   st.pieces.map (fun ps => ps ++ [g.piece]), st.out_line + 1, g.level, g.stack⟩

/-- A dedent keyword line (`else`/`elif`/`except`/`finally`) that is a
non-blank `ControlHeader`. -/
def isDedentLine (l : Line) : Bool :=
  decide (l.line_type = LineType.Control) && decide (¬ isBlankL l) &&
  (["else", "elif", "except", "finally"].map String.toList).any
    (fun kw => kw.isPrefixOf
      (sliceStr l.text (content_bounds l.text).1 (content_bounds l.text).2))

lemma head?_eq_some_ne_nil {stk : List String} {s : String}
    (h : stk.head? = some s) : stk ≠ [] := by
  intro hc
  rw [hc] at h
  simp at h

lemma nat_max_one (a : Nat) : Nat.max a 1 = if a ≤ 1 then 1 else a := by
  split_ifs with h
  · exact Nat.max_eq_right h
  · exact Nat.max_eq_left (by omega)

lemma bodyGen_level_stack (lvl : Nat) (stk : List String) (ol : Nat) (l : Line)
    (hinv : lvl = stk.length + 1) :
    (bodyGen lvl stk ol l).level = (bodyGen lvl stk ol l).stack.length + 1 := by
  have hle := dropWhile_length_le (p := fun t => t = "case") stk
  unfold bodyGen
  dsimp only
  cases l.line_type <;> dsimp only
  case Html => split_ifs <;> exact hinv
  case Python => split_ifs <;> exact hinv
  case Control =>
    split_ifs with h1 h2 h3 h4 <;> dsimp only
    · exact hinv
    · exact hinv
    · have hne := head?_eq_some_ne_nil h4
      have hpos : 1 ≤ stk.length := List.length_pos.mpr hne
      simp only [List.length_cons, List.length_tail]
      omega
    · simp only [List.length_cons]
      omega
    · simp only [List.length_cons]
      omega
    · simp only [List.length_cons]
      omega
  case End =>
    rw [popCases_eq]
    dsimp only
    split_ifs with h1 h2 <;> dsimp only
    · omega
    · have hnil : stk.dropWhile (fun t => t = "case") = [] := by simpa using h2
      rw [hnil]
      simp only [List.length_nil]
      rw [nat_max_one]
      split_ifs <;> omega
    · have hne : stk.dropWhile (fun t => t = "case") ≠ [] := by simpa using h2
      have hpos := List.length_pos.mpr hne
      simp only [List.length_tail]
      rw [nat_max_one]
      split_ifs <;> omega

end Hyperprose

namespace Hyperprose

lemma bodyGen_eq_noFloor (lvl : Nat) (stk : List String) (ol : Nat) (l : Line)
    (hinv : lvl = stk.length + 1) (hded : isDedentLine l = true → 2 ≤ lvl) :
    bodyGen lvl stk ol l = bodyGenNoFloor lvl stk ol l := by
  have hle := dropWhile_length_le (p := fun t => t = "case") stk
  unfold bodyGen bodyGenNoFloor
  dsimp only
  cases hty : l.line_type <;> dsimp only
  case Control =>
    split_ifs with h1 h2 <;> try rfl
    have hd : isDedentLine l = true := by
      unfold isDedentLine isBlankL
      rw [hty, h2]
      simp [h1]
    have h2lvl := hded hd
    rw [show Nat.max (lvl - 1) 1 = lvl - 1 from Nat.max_eq_left (by omega)]
  case End =>
    rw [popCases_eq]
    dsimp only
    split_ifs with h1 h2 <;> try rfl
    · have hlen0 : (stk.dropWhile (fun t => t = "case")).length = 0 := by
        have hnil : stk.dropWhile (fun t => t = "case") = [] := by simpa using h2
        rw [hnil]
        rfl
      rw [show Nat.max (lvl - (stk.length -
          (stk.dropWhile (fun t => t = "case")).length)) 1 =
          lvl - (stk.length - (stk.dropWhile (fun t => t = "case")).length) from
        Nat.max_eq_left (by omega)]
    · have hpos : 1 ≤ (stk.dropWhile (fun t => t = "case")).length :=
        List.length_pos.mpr (by simpa using h2)
      rw [show Nat.max ((lvl - (stk.length -
          (stk.dropWhile (fun t => t = "case")).length)) - 1) 1 =
          (lvl - (stk.length - (stk.dropWhile (fun t => t = "case")).length)) - 1 from
        Nat.max_eq_left (by omega)]

/-- C10 (amended): through the body loop, `level` always equals the length
of the block-kind stack plus one (hence stays at least 1); the saturating
subtractions of the `BlockEnd` arm never exceed the available level, and
removing the floors changes nothing except in the dedent arm when a dedent
keyword occurs at nesting level 1, where the `max 1` floor does fire. -/
theorem c10_level_invariant_amended (st : St) (l : Line)
    (hinv : st.level = st.stack.length + 1) :
    (bodyStep st l).level = (bodyStep st l).stack.length + 1 ∧
    1 ≤ (bodyStep st l).level ∧
    (st.stack.length - (endRest st.stack).length) +
      (if (endRest st.stack).isEmpty then 0 else 1) < st.level ∧
    ((isDedentLine l = true → 2 ≤ st.level) →
      bodyStep st l = bodyStepNoFloor st l) := by
  have hls := bodyGen_level_stack st.level st.stack st.out_line l hinv
  refine ⟨hls, ?_, ?_, ?_⟩
  · show 1 ≤ (bodyGen st.level st.stack st.out_line l).level
    omega
  · have hle := dropWhile_length_le (p := fun t => t = "case") st.stack
    unfold endRest
    by_cases hemp : (st.stack.dropWhile (fun t => t = "case")).isEmpty = true
    · rw [if_pos hemp]
      omega
    · rw [if_neg hemp]
      have hpos : 1 ≤ (st.stack.dropWhile (fun t => t = "case")).length :=
        List.length_pos.mpr (by simpa using hemp)
      omega
  · intro h
    unfold bodyStep bodyStepNoFloor
    rw [bodyGen_eq_noFloor st.level st.stack st.out_line l hinv h]

/-- C10 (counterexample): the input `"else:"` reaches the dedent arm at
nesting level 1 with an empty stack, where the `max 1` floor changes the
computed indentation from 0 to 1; the floored and unfloored body steps
disagree on this reachable state. -/
theorem c10_counterexample :
    (transpile "else:".toList).python_code =
      "def __hyper_template__():\n    else:\n".toList ∧
    stTwo "else:".toList false =
      ⟨["def __hyper_template__():".toList], [⟨0, 0, 0, 0⟩], none, 1, 1, []⟩ ∧
    (lex "else:".toList).drop (find_structure (lex "else:".toList)).2.2 =
      [⟨LineType.Control, "else:".toList, 0, 0⟩] ∧
    bodyStep ⟨["def __hyper_template__():".toList], [⟨0, 0, 0, 0⟩], none, 1, 1, []⟩
        ⟨LineType.Control, "else:".toList, 0, 0⟩ ≠
      bodyStepNoFloor ⟨["def __hyper_template__():".toList], [⟨0, 0, 0, 0⟩], none, 1, 1, []⟩
        ⟨LineType.Control, "else:".toList, 0, 0⟩ := by
  refine ⟨?_, ?_, ?_, ?_⟩ <;> decide

/-- Witness for `c10_level_invariant_amended` at a concrete state. -/
theorem c10_level_invariant_witness :
    ((⟨[], [], none, 0, 2, ["block"]⟩ : St).level =
      (⟨[], [], none, 0, 2, ["block"]⟩ : St).stack.length + 1) ∧
    ((bodyStep ⟨[], [], none, 0, 2, ["block"]⟩ ⟨LineType.Python, "x = 1".toList, 0, 0⟩).level =
      (bodyStep ⟨[], [], none, 0, 2, ["block"]⟩
        ⟨LineType.Python, "x = 1".toList, 0, 0⟩).stack.length + 1 ∧
    1 ≤ (bodyStep ⟨[], [], none, 0, 2, ["block"]⟩
      ⟨LineType.Python, "x = 1".toList, 0, 0⟩).level ∧
    ((⟨[], [], none, 0, 2, ["block"]⟩ : St).stack.length -
        (endRest (⟨[], [], none, 0, 2, ["block"]⟩ : St).stack).length) +
      (if (endRest (⟨[], [], none, 0, 2, ["block"]⟩ : St).stack).isEmpty then 0 else 1) <
      (⟨[], [], none, 0, 2, ["block"]⟩ : St).level ∧
    ((isDedentLine ⟨LineType.Python, "x = 1".toList, 0, 0⟩ = true →
        2 ≤ (⟨[], [], none, 0, 2, ["block"]⟩ : St).level) →
      bodyStep ⟨[], [], none, 0, 2, ["block"]⟩ ⟨LineType.Python, "x = 1".toList, 0, 0⟩ =
        bodyStepNoFloor ⟨[], [], none, 0, 2, ["block"]⟩
          ⟨LineType.Python, "x = 1".toList, 0, 0⟩)) :=
  ⟨by decide, c10_level_invariant_amended ⟨[], [], none, 0, 2, ["block"]⟩
    ⟨LineType.Python, "x = 1".toList, 0, 0⟩ (by decide)⟩

end Hyperprose

namespace Hyperprose

/-! ### Independence from the injection flag (claim C9) -/

/-- Forget the piece accumulator of a state. -/
def eraseP (st : St) : St :=
  ⟨st.output, st.mappings, none, st.out_line, st.level, st.stack⟩

lemma bodyStep_eraseP (st : St) (l : Line) :
    bodyStep (eraseP st) l = eraseP (bodyStep st l) := rfl

lemma leadStep_eraseP (st : St) (l : Line) :
    leadStep (eraseP st) l = eraseP (leadStep st l) := rfl

lemma emitSignature_eraseP (dkw : List Char) (lines params : List Line)
    (bs : Nat) (st : St) :
    emitSignature dkw lines params bs (eraseP st) =
      eraseP (emitSignature dkw lines params bs st) := by
  cases params <;> rfl

lemma foldl_bodyStep_eraseP :
    ∀ (ls : List Line) (st : St),
      ls.foldl bodyStep (eraseP st) = eraseP (ls.foldl bodyStep st) := by
  intro ls
  induction ls with
  | nil => intro st; rfl
  | cons l rest ih =>
    intro st
    rw [List.foldl_cons, List.foldl_cons, bodyStep_eraseP, ih]

lemma foldl_leadStep_eraseP :
    ∀ (ls : List Line) (st : St),
      ls.foldl leadStep (eraseP st) = eraseP (ls.foldl leadStep st) := by
  intro ls
  induction ls with
  | nil => intro st; rfl
  | cons l rest ih =>
    intro st
    rw [List.foldl_cons, List.foldl_cons, leadStep_eraseP, ih]

lemma stThree_false_eq (source : List Char) :
    stThree source false = eraseP (stThree source true) := by
  unfold stThree stTwo stOne
  rw [show (⟨[], [], if false = true then some [] else none, 0, 1, []⟩ : St) =
      eraseP ⟨[], [], if true = true then some [] else none, 0, 1, []⟩ from rfl]
  rw [foldl_leadStep_eraseP, emitSignature_eraseP, foldl_bodyStep_eraseP]

lemma bodyStep_pieces_isSome (st : St) (l : Line) :
    (bodyStep st l).pieces.isSome = st.pieces.isSome := by
  cases h : st.pieces with
  | none => show (Option.map _ st.pieces).isSome = _; rw [h]; rfl
  | some ps => show (Option.map _ st.pieces).isSome = _; rw [h]; rfl

lemma leadStep_pieces_isSome (st : St) (l : Line) :
    (leadStep st l).pieces.isSome = st.pieces.isSome := by
  cases h : st.pieces with
  | none => show (Option.map _ st.pieces).isSome = _; rw [h]; rfl
  | some ps => show (Option.map _ st.pieces).isSome = _; rw [h]; rfl

lemma emitSignature_pieces_isSome (dkw : List Char) (lines params : List Line)
    (bs : Nat) (st : St) :
    (emitSignature dkw lines params bs st).pieces.isSome = st.pieces.isSome := by
  cases params with
  | nil =>
    cases h : st.pieces with
    | none => show (Option.map _ st.pieces).isSome = _; rw [h]; rfl
    | some ps => show (Option.map _ st.pieces).isSome = _; rw [h]; rfl
  | cons p rest =>
    cases h : st.pieces with
    | none => show (Option.map _ st.pieces).isSome = _; rw [h]; rfl
    | some ps => show (Option.map _ st.pieces).isSome = _; rw [h]; rfl

lemma stThree_true_isSome (source : List Char) :
    (stThree source true).pieces.isSome = true := by
  unfold stThree
  refine foldl_invariant (fun st => st.pieces.isSome = true) bodyStep _ _
    (fun s l _ hs => by
      show (bodyStep s l).pieces.isSome = true
      rw [bodyStep_pieces_isSome]; exact hs) ?_
  show (stTwo source true).pieces.isSome = true
  unfold stTwo
  rw [emitSignature_pieces_isSome]
  refine foldl_invariant (fun st => st.pieces.isSome = true) leadStep _ _
    (fun s l _ hs => by
      show (leadStep s l).pieces.isSome = true
      rw [leadStep_pieces_isSome]; exact hs) ?_
  rfl

/-- C9 (confirmed): the `include_injection` flag changes neither the
generated code nor the source mappings; it only controls whether
`python_pieces` is present (`some`) or absent (`none`). -/
theorem c9_injection_flag (source : List Char) :
    (transpile_ext source true).python_code = (transpile source).python_code ∧
    (transpile_ext source true).source_mappings =
      (transpile source).source_mappings ∧
    (transpile source).python_pieces = none ∧
    (transpile_ext source true).python_pieces.isSome = true := by
  have h := stThree_false_eq source
  refine ⟨?_, ?_, ?_, ?_⟩
  · show finalizeCode (stThree source true).output =
      finalizeCode (stThree source false).output
    rw [h]
    rfl
  · show (stThree source true).mappings = (stThree source false).mappings
    rw [h]
    rfl
  · show (stThree source false).pieces = none
    rw [h]
    rfl
  · exact stThree_true_isSome source

end Hyperprose

namespace Hyperprose

/-! ### Totality: a bounds-checked variant of `transpile_ext` (claim C8)

Every indexing and slicing operation of the Rust code is rendered here as an
`Option`-valued operation that fails when out of bounds, exactly where the
Rust counterpart would panic.  The theorem shows the checked pipeline always
succeeds and returns the result of `transpile_ext`. -/

/-- Checked `t[s..e]`: fails unless `s ≤ e ≤ t.len()`. -/
def sliceChecked (t : List Char) (s e : Nat) : Option (List Char) :=
  if s ≤ e ∧ e ≤ t.length then some (sliceStr t s e) else none

/-- `bodyGen` with the slice `line.text[start..end]` bounds-checked. -/
def bodyGenChecked (level : Nat) (stack : List String) (out_line : Nat)
    (line : Line) : Option Emit :=
  let start := (content_bounds line.text).1
  let «end» := (content_bounds line.text).2
  if «end» ≤ start then
    some ⟨[], ⟨out_line, 0, line.line_number, 0⟩,
     ⟨[], nlTok, line.byte_offset, line.byte_offset⟩, level, stack⟩
  else
    (sliceChecked line.text start «end»).map (fun trimmed =>
      let src_start := line.byte_offset + start
      let src_end := line.byte_offset + «end»
      match line.line_type with
      | LineType.Control =>
        let is_dedent :=
          (["else", "elif", "except", "finally"].map String.toList).any
            (fun kw => kw.isPrefixOf trimmed)
        let is_case := "case".toList.isPrefixOf trimmed
        if is_dedent then
          let print_level := Nat.max (level - 1) 1
          ⟨indentRep print_level ++ trimmed,
           ⟨out_line, 4 * print_level, line.line_number, start⟩,
           ⟨indentRep print_level, nlTok, src_start, src_end⟩, level, stack⟩
        else if is_case then
          let stack1 := if stack.head? = some "case" then stack.tail else stack
          let level1 := if stack.head? = some "case" then level - 1 else level
          ⟨indentRep level1 ++ trimmed,
           ⟨out_line, 4 * level1, line.line_number, start⟩,
           ⟨indentRep level1, nlTok, src_start, src_end⟩,
           level1 + 1, "case" :: stack1⟩
        else
          ⟨indentRep level ++ trimmed,
           ⟨out_line, 4 * level, line.line_number, start⟩,
           ⟨indentRep level, nlTok, src_start, src_end⟩,
           level + 1,
           (if "match".toList.isPrefixOf trimmed then "match" else "block") :: stack⟩
      | LineType.End =>
        let p := popCases stack level
        let stack2 := if p.1.isEmpty then p.1 else p.1.tail
        let level2 := if p.1.isEmpty then p.2 else p.2 - 1
        let level3 := Nat.max level2 1
        ⟨indentRep level3 ++ "pass".toList,
         ⟨out_line, 0, line.line_number, 0⟩,
         ⟨indentRep level3 ++ "pass\n".toList, [], line.byte_offset, line.byte_offset⟩,
         level3, stack2⟩
      | LineType.Html =>
        ⟨indentRep level ++ "t\"\"\"".toList ++ trimmed ++ "\"\"\"".toList,
         ⟨out_line, 4 * level + 4, line.line_number, start⟩,
         ⟨indentRep level ++ "t\"\"\"".toList, "\"\"\"\n".toList, src_start, src_end⟩,
         level, stack⟩
      | LineType.Python =>
        ⟨indentRep level ++ trimmed,
         ⟨out_line, 4 * level, line.line_number, start⟩,
         ⟨indentRep level, nlTok, src_start, src_end⟩, level, stack⟩)

/-- Checked body-loop iteration. -/
def bodyStepChecked (st : St) (line : Line) : Option St :=
  (bodyGenChecked st.level st.stack st.out_line line).map (fun g =>
    ⟨st.output ++ [g.line], st.mappings ++ [g.map],
     st.pieces.map (fun ps => ps ++ [g.piece]), st.out_line + 1, g.level, g.stack⟩)

/-- Checked leading-loop iteration. -/
def leadStepChecked (st : St) (line : Line) : Option St :=
  if !(rustTrim line.text).isEmpty then
    (sliceChecked line.text (content_bounds line.text).1
        (content_bounds line.text).2).map (fun sl =>
      ⟨st.output ++ [sl],
       st.mappings ++ [⟨st.out_line, 0, line.line_number, (content_bounds line.text).1⟩],
       st.pieces.map (fun ps => ps ++
         [⟨[], nlTok, line.byte_offset + (content_bounds line.text).1,
           line.byte_offset + (content_bounds line.text).2⟩]),
       st.out_line + 1, st.level, st.stack⟩)
  else
    some ⟨st.output ++ [[]],
      st.mappings ++ [⟨st.out_line, 0, line.line_number, 0⟩],
      st.pieces.map (fun ps => ps ++
        [⟨[], nlTok, line.byte_offset, line.byte_offset⟩]),
      st.out_line + 1, st.level, st.stack⟩

/-- Checked `param_strs`: each `p.text[s..e].to_string()` bounds-checked. -/
def paramSlicesChecked : List Line → Option (List (List Char))
  | [] => some []
  | p :: rest =>
    match sliceChecked p.text (content_bounds p.text).1 (content_bounds p.text).2,
        paramSlicesChecked rest with
    | some s, some ss => some (s :: ss)
    | _, _ => none

/-- Checked signature emission: `params[0]`, `lines[body_start]` and
`lines.last().unwrap()` are checked indexings. -/
def emitSignatureChecked (def_kw : List Char) (lines params : List Line)
    (body_start : Nat) (st : St) : Option St :=
  if params.isEmpty then
    let obo : Option Nat :=
      if body_start < lines.length then
        (lines.get? body_start).map Line.byte_offset
      else if !lines.isEmpty then
        lines.getLast?.map Line.byte_offset
      else some 0
    obo.map (fun body_offset =>
      ⟨st.output ++ [def_kw ++ " __hyper_template__():".toList],
       st.mappings ++ [⟨st.out_line, 0, Nat.min body_start (lines.length - 1), 0⟩],
       st.pieces.map (fun ps => ps ++
         [⟨def_kw ++ " __hyper_template__():\n".toList, [], body_offset, body_offset⟩]),
       st.out_line + 1, st.level, st.stack⟩)
  else
    match paramSlicesChecked params, params.get? 0 with
    | some param_strs, some first =>
      let sig := def_kw ++ " __hyper_template__(".toList ++
        List.intercalate ", ".toList param_strs ++ "):".toList
      some ⟨st.output ++ [sig],
        st.mappings ++ [⟨st.out_line,
          def_kw.length + (" __hyper_template__(".toList).length,
          first.line_number, (content_bounds first.text).1⟩],
        st.pieces.map (fun ps => ps ++ paramPiecesGo def_kw params.length 0 params),
        st.out_line + 1, st.level, st.stack⟩
    | _, _ => none

/-- The checked whole pipeline: the body loop runs over the index range
`body_start..lines.len()` with a checked `lines[i]`, as in the Rust. -/
def transpile_ext_checked (source : List Char) (include_injection : Bool) :
    Option TranspileResult :=
  let lines := lex source
  let fs := find_structure lines
  let leading := fs.1
  let params := fs.2.1
  let body_start := fs.2.2
  let is_async := has_await lines || has_async_construct lines
  let def_kw := if is_async then "async def".toList else "def".toList
  let st0 : St := ⟨[], [], if include_injection then some [] else none, 0, 1, []⟩
  match leading.foldlM leadStepChecked st0 with
  | none => none
  | some st1 =>
    match emitSignatureChecked def_kw lines params body_start st1 with
    | none => none
    | some st2 =>
      match (List.range' body_start (lines.length - body_start)).foldlM
          (fun st i =>
            match lines.get? i with
            | none => none
            | some l => bodyStepChecked st l) st2 with
      | none => none
      | some st3 => some ⟨finalizeCode st3.output, st3.mappings, st3.pieces⟩

end Hyperprose

namespace Hyperprose

lemma sliceChecked_cb (t : List Char) :
    sliceChecked t (content_bounds t).1 (content_bounds t).2 =
      some (sliceStr t (content_bounds t).1 (content_bounds t).2) := by
  unfold sliceChecked
  rw [if_pos ⟨cb_start_le_end t, cb_end_le_length t⟩]

lemma bodyGenChecked_eq (level : Nat) (stack : List String) (out_line : Nat)
    (l : Line) :
    bodyGenChecked level stack out_line l =
      some (bodyGen level stack out_line l) := by
  unfold bodyGenChecked bodyGen
  dsimp only
  by_cases h : (content_bounds l.text).2 ≤ (content_bounds l.text).1
  · rw [if_pos h, if_pos h]
  · rw [if_neg h, if_neg h, sliceChecked_cb]
    rfl

lemma bodyStepChecked_eq (st : St) (l : Line) :
    bodyStepChecked st l = some (bodyStep st l) := by
  unfold bodyStepChecked
  rw [bodyGenChecked_eq]
  rfl

lemma leadStepChecked_eq (st : St) (l : Line) :
    leadStepChecked st l = some (leadStep st l) := by
  unfold leadStepChecked leadStep leadGen
  dsimp only
  split_ifs with h
  · rw [sliceChecked_cb]
    rfl
  · rfl

lemma paramSlicesChecked_eq :
    ∀ params : List Line,
      paramSlicesChecked params =
        some (params.map (fun p =>
          sliceStr p.text (content_bounds p.text).1 (content_bounds p.text).2)) := by
  intro params
  induction params with
  | nil => rfl
  | cons p rest ih =>
    unfold paramSlicesChecked
    rw [sliceChecked_cb, ih]
    rfl

lemma getLast?_isSome_of_ne_nil {α : Type} (ls : List α) (h : ls ≠ []) :
    ∃ a, ls.getLast? = some a := by
  cases hl : ls.getLast? with
  | some a => exact ⟨a, rfl⟩
  | none => exact absurd (List.getLast?_eq_none_iff.mp hl) h

lemma emitSignatureChecked_eq (def_kw : List Char) (lines params : List Line)
    (body_start : Nat) (st : St) :
    emitSignatureChecked def_kw lines params body_start st =
      some (emitSignature def_kw lines params body_start st) := by
  unfold emitSignatureChecked emitSignature
  cases params with
  | nil =>
    rw [if_pos (show ([] : List Line).isEmpty = true from rfl)]
    dsimp only
    by_cases h1 : body_start < lines.length
    · rw [if_pos h1]
      have hget : ∃ l, lines.get? body_start = some l :=
        ⟨lines.get ⟨body_start, h1⟩, List.get?_eq_get h1⟩
      obtain ⟨l, hl⟩ := hget
      rw [hl]
      simp only [h1, ite_true]
      rfl
    · simp only [h1, ite_false]
      by_cases h2 : lines.isEmpty
      · have : lines = [] := List.isEmpty_iff.mp h2
        subst this
        rfl
      · rw [show (!lines.isEmpty) = true by
          cases h3 : lines.isEmpty
          · rfl
          · exact absurd h3 h2]
        have hne : lines ≠ [] := fun hh => h2 (by rw [hh]; rfl)
        obtain ⟨a, ha⟩ := getLast?_isSome_of_ne_nil lines hne
        rw [ha]
        rfl
  | cons first rest =>
    rw [if_neg (by simp)]
    rw [paramSlicesChecked_eq]
    rfl

lemma foldlM_of_total {α β : Type} (f : β → α → Option β) (g : β → α → β)
    (hf : ∀ st a, f st a = some (g st a)) :
    ∀ (ls : List α) (init : β), ls.foldlM f init = some (ls.foldl g init) := by
  intro ls
  induction ls with
  | nil => intro init; rfl
  | cons a rest ih =>
    intro init
    rw [List.foldlM_cons, hf, List.foldl_cons]
    exact ih (g init a)

end Hyperprose

namespace Hyperprose

lemma foldlM_idx (lines : List Line) :
    ∀ (cnt i : Nat) (st : St), i + cnt ≤ lines.length →
      (List.range' i cnt).foldlM
        (fun st j => match lines.get? j with
          | none => none
          | some l => bodyStepChecked st l) st
        = some (((lines.drop i).take cnt).foldl bodyStep st) := by
  intro cnt
  induction cnt with
  | zero => intro i st h; rfl
  | succ k ih =>
    intro i st h
    have hi : i < lines.length := by omega
    have hget : lines.get? i = some (lines.get ⟨i, hi⟩) := List.get?_eq_get hi
    rw [List.range'_succ, List.foldlM_cons]
    rw [hget]
    dsimp only
    rw [bodyStepChecked_eq]
    show List.foldlM
        (fun st j => match lines.get? j with
          | none => none
          | some l => bodyStepChecked st l)
        (bodyStep st (lines.get ⟨i, hi⟩)) (List.range' (i + 1) k) =
      some (List.foldl bodyStep st (List.take (k + 1) (List.drop i lines)))
    rw [ih (i + 1) (bodyStep st (lines.get ⟨i, hi⟩)) (by omega)]
    rw [List.drop_eq_get_cons hi, List.take_cons, List.foldl_cons]
    · rw [Nat.add_sub_cancel]
    · exact Nat.succ_pos k

/-- C8 (confirmed): on every input — malformed structure included — the
bounds-checked pipeline, in which each indexing and slicing of the Rust code
fails explicitly when out of range, succeeds and returns exactly
`transpile_ext source b`; so `transpile_ext` is total and every internal
indexing and slicing stays within bounds. -/
theorem c8_totality (source : List Char) (b : Bool) :
    transpile_ext_checked source b = some (transpile_ext source b) := by
  unfold transpile_ext_checked transpile_ext
  dsimp only
  rw [foldlM_of_total leadStepChecked leadStep leadStepChecked_eq]
  dsimp only
  rw [emitSignatureChecked_eq]
  dsimp only
  by_cases hbs : (find_structure (lex source)).2.2 ≤ (lex source).length
  · rw [foldlM_idx (lex source) ((lex source).length - (find_structure (lex source)).2.2)
      ((find_structure (lex source)).2.2) _ (by omega)]
    rw [List.take_of_length_le (by rw [List.length_drop])]
  · have hz : (lex source).length - (find_structure (lex source)).2.2 = 0 :=
      Nat.sub_eq_zero_of_le (by omega)
    rw [hz]
    rw [List.drop_eq_nil_of_le (by omega)]
    rfl

end Hyperprose

namespace Hyperprose

/-! ### The async decision (claim C4) -/

lemma hashMatch_iff (t : List Char) :
    (match t with | '#' :: _ => true | _ => false) = true ↔
      ∃ r, t = '#' :: r := by
  constructor
  · intro h
    split at h
    · next r => exact ⟨r, rfl⟩
    · exact absurd h (by simp)
  · rintro ⟨r, rfl⟩
    rfl

lemma rustTrim_prefix_dropWhile (t : List Char) :
    rustTrim t <+: t.dropWhile isRegexWs := by
  unfold rustTrim
  have h1 : (t.dropWhile isRegexWs).reverse.dropWhile isRegexWs <:+
      (t.dropWhile isRegexWs).reverse := List.dropWhile_suffix _
  have h2 : ((t.dropWhile isRegexWs).reverse.dropWhile isRegexWs).reverse <+:
      ((t.dropWhile isRegexWs).reverse).reverse :=
    List.reverse_prefix.mpr h1
  rwa [List.reverse_reverse] at h2

lemma trim_nil_dropWhile_nil (t : List Char) (h : rustTrim t = []) :
    t.dropWhile isRegexWs = [] := by
  unfold rustTrim at h
  rw [List.reverse_eq_nil_iff] at h
  have h2 : ∀ a ∈ (t.dropWhile isRegexWs).reverse, isRegexWs a = true :=
    List.dropWhile_eq_nil_iff.mp h
  cases hd : t.dropWhile isRegexWs with
  | nil => rfl
  | cons c r =>
    have hc : isRegexWs c = true := by
      apply h2
      rw [hd]
      simp
    have hnc : isRegexWs c = false :=
      head?_dropWhile_not (t := t) (by rw [hd]; rfl)
    rw [hc] at hnc
    exact absurd hnc (by simp)

lemma trim_hash_dropWhile (t : List Char) {r : List Char}
    (h : rustTrim t = '#' :: r) :
    ∃ u, t.dropWhile isRegexWs = '#' :: u := by
  obtain ⟨s, hs⟩ := rustTrim_prefix_dropWhile t
  rw [h] at hs
  exact ⟨r ++ s, by rw [← hs]; simp⟩

lemma findGo_leading_prop :
    ∀ (ls : List Line) (sp : Bool) (i : Nat) (L P : List Line) (bs : Nat),
      (∀ l ∈ L, rustTrim l.text = [] ∨ ∃ r, rustTrim l.text = '#' :: r) →
      ∀ l ∈ (findGo sp i L P bs ls).1,
        rustTrim l.text = [] ∨ ∃ r, rustTrim l.text = '#' :: r := by
  intro ls
  induction ls with
  | nil =>
    intro sp i L P bs hL l hl
    exact hL l hl
  | cons line rest ih =>
    intro sp i L P bs hL l hl
    simp only [findGo] at hl
    split_ifs at hl with h1 h2 h3
    · refine ih sp (i + 1) (L ++ [line]) P (i + 1) ?_ l hl
      intro x hx
      rcases List.mem_append.mp hx with hx | hx
      · exact hL x hx
      · have hx2 : x = line := by simpa using hx
        subst hx2
        left
        rw [Bool.and_eq_true] at h1
        exact List.isEmpty_iff.mp h1.1
    · refine ih sp (i + 1) (L ++ [line]) P (i + 1) ?_ l hl
      intro x hx
      rcases List.mem_append.mp hx with hx | hx
      · exact hL x hx
      · have hx2 : x = line := by simpa using hx
        subst hx2
        right
        rw [Bool.and_eq_true] at h2
        exact (hashMatch_iff _).mp h2.2
    · exact ih true (i + 1) L (P ++ [line]) (i + 1) hL l hl
    · exact hL l hl

lemma find_structure_leading_prop {lines : List Line} {l : Line}
    (h : l ∈ (find_structure lines).1) :
    rustTrim l.text = [] ∨ ∃ r, rustTrim l.text = '#' :: r :=
  findGo_leading_prop lines false 0 [] [] 0
    (by intro x hx; simp at hx) l h

lemma awaitLineB_lead (l : Line)
    (h : rustTrim l.text = [] ∨ ∃ r, rustTrim l.text = '#' :: r) :
    awaitLineB l = false := by
  unfold awaitLineB
  split_ifs with ht
  · rcases h with h | ⟨r, h⟩
    · rw [h]
      rfl
    · rw [h]
      rfl
  · rfl

lemma asyncForLine_lead (t : List Char)
    (h : rustTrim t = [] ∨ ∃ r, rustTrim t = '#' :: r) :
    asyncForLine t = false := by
  unfold asyncForLine
  rcases h with h | ⟨r, h⟩
  · rw [trim_nil_dropWhile_nil t h]
    rfl
  · obtain ⟨u, hu⟩ := trim_hash_dropWhile t h
    rw [hu]
    rfl

lemma asyncWithLine_lead (t : List Char)
    (h : rustTrim t = [] ∨ ∃ r, rustTrim t = '#' :: r) :
    asyncWithLine t = false := by
  unfold asyncWithLine
  rcases h with h | ⟨r, h⟩
  · rw [trim_nil_dropWhile_nil t h]
    rfl
  · obtain ⟨u, hu⟩ := trim_hash_dropWhile t h
    rw [hu]
    rfl

lemma asyncConstructB_lead (l : Line)
    (h : rustTrim l.text = [] ∨ ∃ r, rustTrim l.text = '#' :: r) :
    asyncConstructB l = false := by
  unfold asyncConstructB
  rw [asyncForLine_lead l.text h, asyncWithLine_lead l.text h]
  simp

end Hyperprose

namespace Hyperprose

lemma foldl_leadStep_output_length :
    ∀ (ls : List Line) (st : St),
      ((ls.foldl leadStep st).output).length = st.output.length + ls.length := by
  intro ls
  induction ls with
  | nil => intro st; simp
  | cons l rest ih =>
    intro st
    rw [List.foldl_cons, ih, leadStep_output]
    simp
    omega

lemma foldl_bodyStep_output_exists :
    ∀ (ls : List Line) (st : St),
      ∃ tail, ((ls.foldl bodyStep st).output) = st.output ++ tail := by
  intro ls
  induction ls with
  | nil => intro st; exact ⟨[], by simp⟩
  | cons l rest ih =>
    intro st
    obtain ⟨tail, htail⟩ := ih (bodyStep st l)
    rw [List.foldl_cons]
    exact ⟨(bodyGen st.level st.stack st.out_line l).line :: tail,
      by rw [htail, bodyStep_output]; simp⟩

lemma stOne_output_length (source : List Char) (b : Bool) :
    (stOne source b).output.length = (find_structure (lex source)).1.length := by
  unfold stOne
  rw [foldl_leadStep_output_length]
  simp

lemma stThree_shape (source : List Char) (b : Bool) :
    ∃ s tail rest, (stThree source b).output =
        (stOne source b).output ++ s :: tail ∧
      s = defKw source ++ ' ' :: rest ∧ s ≠ [] := by
  obtain ⟨s, m, hout, -, -, -, -, -, -, -, hsne, rest, hrest⟩ := stTwo_spec source b
  obtain ⟨tail, htail⟩ := foldl_bodyStep_output_exists
    ((lex source).drop (find_structure (lex source)).2.2) (stTwo source b)
  refine ⟨s, tail, rest, ?_, hrest, hsne⟩
  show (((lex source).drop (find_structure (lex source)).2.2).foldl bodyStep
      (stTwo source b)).output = _
  rw [htail, hout]
  simp

/-- C4 (amended): the generated line right after the leading block is the
function header; it starts with `async def` exactly when the whole-file scan
`has_await || has_async_construct` fires — a scan that covers every lexed
line, parameter declarations included — while lines of the leading run can
never satisfy either trigger predicate. -/
theorem c4_async_decision_amended (source : List Char) (b : Bool) :
    (∃ header tl,
      (splitLines (transpile_ext source b).python_code).get?
          (find_structure (lex source)).1.length = some header ∧
      header = defKw source ++ ' ' :: tl ∧
      ("async def".toList.isPrefixOf header
        = (has_await (lex source) || has_async_construct (lex source)))) ∧
    ∀ l ∈ (find_structure (lex source)).1,
      awaitLineB l = false ∧ asyncConstructB l = false := by
  constructor
  · obtain ⟨s, tail, rest, hout, hrest, hsne⟩ := stThree_shape source b
    have hn : (stOne source b).output.length =
        (find_structure (lex source)).1.length := stOne_output_length source b
    have hfin : splitLines (transpile_ext source b).python_code =
        if (stThree source b).output.getLast? = some [] then
          (stThree source b).output.dropLast
        else (stThree source b).output := by
      rw [transpile_ext_eq]
      exact splitLines_finalize _ (stThree_inv source b).2
    have hget : ((stOne source b).output ++ s :: tail).get?
        (find_structure (lex source)).1.length = some s := by
      rw [← hn, List.get?_append_right (le_refl _)]
      simp
    refine ⟨s, rest, ?_, hrest, ?_⟩
    · rw [hfin]
      split_ifs with hlast
      · have htne : tail ≠ [] := by
          intro hte
          rw [hout, hte] at hlast
          have : s = [] := by
            have h2 := hlast
            rw [List.getLast?_concat] at h2
            exact Option.some_inj.mp h2
          exact hsne this
        rw [hout, List.dropLast_eq_take, List.get?_take, hget]
        rw [List.length_append, hn]
        have : 1 ≤ tail.length := by
          cases tail with
          | nil => exact absurd rfl htne
          | cons a t => simp
        simp only [List.length_cons]
        omega
      · rw [hout, hget]
    · rw [hrest]
      unfold defKw
      cases hflag : (has_await (lex source) || has_async_construct (lex source))
      · rw [if_neg (by simp)]
        rfl
      · rw [if_pos rfl]
        exact List.isPrefixOf_iff_prefix.mpr (List.prefix_append _ _)
  · intro l hl
    have hp := find_structure_leading_prop hl
    exact ⟨awaitLineB_lead l hp, asyncConstructB_lead l hp⟩

end Hyperprose

namespace Hyperprose

/-- C4 counterexample: on `"x: await f\n"` the only line is a parameter
declaration (the body is empty), yet the inline `await` in it makes the
header asynchronous — parameter-declaration lines do influence the
decision. -/
theorem c4_counterexample :
    (find_structure (lex "x: await f\n".toList)).2.1 =
      [⟨LineType.Python, "x: await f".toList, 0, 0⟩] ∧
    (lex "x: await f\n".toList).drop
      (find_structure (lex "x: await f\n".toList)).2.2 = [] ∧
    "async def".toList.isPrefixOf (transpile "x: await f\n".toList).python_code
      = true := by
  refine ⟨?_, ?_, ?_⟩ <;> decide

/-- C4 witness: the amended theorem applied to `"# note\n<p>\n"`, whose
leading run is its comment line. -/
theorem c4_async_decision_witness :
    awaitLineB ⟨LineType.Python, "# note".toList, 0, 0⟩ = false ∧
    asyncConstructB ⟨LineType.Python, "# note".toList, 0, 0⟩ = false :=
  (c4_async_decision_amended "# note\n<p>\n".toList false).2
    ⟨LineType.Python, "# note".toList, 0, 0⟩ (by decide)

end Hyperprose

namespace Hyperprose

/-! ### Piece reconstruction (claim C2)

The byte offsets recorded by `lex` are correct as long as the source
contains no `\r` (the Rust lexer advances by `text.len() + 1` per line,
which undercounts `\r\n` terminators).  Under that proviso each piece's
`[src_start, src_end)` slice of the source equals the in-line slice the
generator used. -/

/-- The source text, from offset `off` on, carries the listed segments in
order, each followed by a one-byte line terminator. -/
def offOK (source : List Char) : Nat → List (List Char) → Prop
  | _, [] => True
  | off, t :: rest =>
      (∃ u, source.drop off = t ++ u) ∧ offOK source (off + t.length + 1) rest

lemma offOK_splitLinesGo (source : List Char) (hcr : '\r' ∉ source) :
    ∀ (rem cur : List Char) (off : Nat),
      source.drop off = cur ++ rem →
      offOK source off (splitLinesGo cur rem) := by
  intro rem
  induction rem with
  | nil =>
    intro cur off hd
    exact ⟨⟨[], by simpa using hd⟩, trivial⟩
  | cons c rest ih =>
    intro cur off hd
    have hcur : cur.getLast? ≠ some '\r' := by
      intro hcl
      apply hcr
      have : '\r' ∈ cur := List.mem_of_getLast?_eq_some hcl
      have : '\r' ∈ source.drop off := by
        rw [hd]
        exact List.mem_append_left _ this
      exact List.mem_of_mem_drop this
    show offOK source off (splitLinesGo cur (c :: rest))
    unfold splitLinesGo
    split_ifs with hc
    · subst hc
      cases rest with
      | nil =>
        exact ⟨⟨['\n'], by rw [stripCR_self hcur]; simpa using hd⟩, trivial⟩
      | cons r rs =>
        rw [stripCR_self hcur]
        refine ⟨⟨'\n' :: (r :: rs), by simpa using hd⟩, ?_⟩
        apply ih [] (off + cur.length + 1)
        have h2 : source.drop (off + cur.length + 1) =
            (source.drop off).drop (cur.length + 1) := by
          rw [List.drop_drop]
          try congr 1
          try omega
        rw [h2, hd]
        rw [show cur ++ '\n' :: (r :: rs) = (cur ++ ['\n']) ++ (r :: rs) by simp]
        rw [List.drop_append_of_le_length (by simp)]
        simp
    · apply ih (cur ++ [c]) off
      rw [hd]
      simp

lemma offOK_splitLines (source : List Char) (hcr : '\r' ∉ source) :
    offOK source 0 (splitLines source) := by
  cases source with
  | nil => trivial
  | cons c rest =>
    exact offOK_splitLinesGo (c :: rest) hcr (c :: rest) [] 0 (by simp)

lemma lexGo_drop (source : List Char) :
    ∀ (segs : List (List Char)) (i off : Nat),
      offOK source off segs →
      ∀ l ∈ lexGo i off segs,
        ∃ u, source.drop l.byte_offset = l.text ++ u := by
  intro segs
  induction segs with
  | nil => intro i off h l hl; simp [lexGo] at hl
  | cons t rest ih =>
    intro i off h l hl
    simp only [lexGo, List.mem_cons] at hl
    rcases hl with hl | hl
    · subst hl
      exact h.1
    · exact ih (i + 1) (off + t.length + 1) h.2 l hl

lemma slice_transfer (source t u : List Char) (off s e : Nat)
    (hd : source.drop off = t ++ u) (hse : s ≤ e) (he : e ≤ t.length) :
    sliceStr source (off + s) (off + e) = sliceStr t s e := by
  unfold sliceStr
  have h1 : source.drop (off + s) = (source.drop off).drop s := by
    rw [List.drop_drop]
    try congr 1
    try omega
  rw [h1, hd, List.drop_append_of_le_length (by omega)]
  have h2 : off + e - (off + s) = e - s := by omega
  rw [h2, List.take_append_of_le_length (by rw [List.length_drop]; omega)]

lemma lex_slice {source : List Char} (hcr : '\r' ∉ source) {l : Line}
    (hl : l ∈ lex source) {s e : Nat} (hse : s ≤ e) (he : e ≤ l.text.length) :
    sliceStr source (l.byte_offset + s) (l.byte_offset + e) =
      sliceStr l.text s e := by
  obtain ⟨u, hu⟩ := lexGo_drop source (splitLines source) 0 0
    (offOK_splitLines source hcr) l hl
  exact slice_transfer source l.text u l.byte_offset s e hu hse he

lemma sliceStr_self_nil (t : List Char) (a : Nat) : sliceStr t a a = [] := by
  simp [sliceStr]

end Hyperprose

namespace Hyperprose

/-- The text a piece contributes: its prefix, the source byte slice
`[src_start, src_end)`, then its suffix (the claim's concatenation rule). -/
def pieceText (source : List Char) (p : PythonPiece) : List Char :=
  p.pre ++ sliceStr source p.src_start p.src_end ++ p.suffix

/-- The full reconstruction over a piece list. -/
def piecesJoin (source : List Char) (ps : List PythonPiece) : List Char :=
  (ps.map (pieceText source)).join

/-- Each generated line followed by a newline, concatenated. -/
def joinNL (out : List (List Char)) : List Char :=
  (out.map (fun l => l ++ nlTok)).join

/-- The generator state reconstructs its own output: pieces are present and
their concatenation is the output lines each followed by a newline. -/
def piecesOK (source : List Char) (st : St) : Prop :=
  ∃ ps, st.pieces = some ps ∧ piecesJoin source ps = joinNL st.output

lemma piecesJoin_append (source : List Char) (ps qs : List PythonPiece) :
    piecesJoin source (ps ++ qs) =
      piecesJoin source ps ++ piecesJoin source qs := by
  unfold piecesJoin
  simp

lemma joinNL_append (a b : List (List Char)) :
    joinNL (a ++ b) = joinNL a ++ joinNL b := by
  unfold joinNL
  simp

lemma piecesJoin_singleton (source : List Char) (p : PythonPiece) :
    piecesJoin source [p] = pieceText source p := by
  unfold piecesJoin
  simp

lemma joinNL_singleton (l : List Char) : joinNL [l] = l ++ nlTok := by
  unfold joinNL
  simp

lemma bodyGen_pieceText {source : List Char} (hcr : '\r' ∉ source) {l : Line}
    (hl : l ∈ lex source) (level : Nat) (stack : List String) (out_line : Nat) :
    pieceText source (bodyGen level stack out_line l).piece =
      (bodyGen level stack out_line l).line ++ nlTok := by
  unfold bodyGen
  dsimp only
  by_cases hb : (content_bounds l.text).2 ≤ (content_bounds l.text).1
  · rw [if_pos hb]
    show pieceText source ⟨[], nlTok, l.byte_offset, l.byte_offset⟩ = [] ++ nlTok
    unfold pieceText
    rw [sliceStr_self_nil]
    rfl
  · rw [if_neg hb]
    have hsl : sliceStr source (l.byte_offset + (content_bounds l.text).1)
        (l.byte_offset + (content_bounds l.text).2) =
        sliceStr l.text (content_bounds l.text).1 (content_bounds l.text).2 :=
      lex_slice hcr hl (cb_start_le_end l.text) (cb_end_le_length l.text)
    cases l.line_type <;> dsimp only
    · unfold pieceText
      dsimp only
      rw [hsl]
      rw [show ("\"\"\"\n".toList : List Char) = "\"\"\"".toList ++ nlTok from rfl]
      simp
    · split_ifs <;>
        (unfold pieceText
         dsimp only
         rw [hsl]
         try simp)
    · unfold pieceText
      dsimp only
      rw [sliceStr_self_nil]
      rw [show ("pass\n".toList : List Char) = "pass".toList ++ nlTok from rfl]
      simp
    · unfold pieceText
      dsimp only
      rw [hsl]
      try simp

lemma leadGen_pieceText {source : List Char} (hcr : '\r' ∉ source) {l : Line}
    (hl : l ∈ lex source) (out_line : Nat) :
    pieceText source (leadGen out_line l).2.2 = (leadGen out_line l).1 ++ nlTok := by
  unfold leadGen
  split_ifs with h
  · show pieceText source ⟨[], nlTok, l.byte_offset + (content_bounds l.text).1,
      l.byte_offset + (content_bounds l.text).2⟩ = _
    unfold pieceText
    dsimp only
    rw [lex_slice hcr hl (cb_start_le_end l.text) (cb_end_le_length l.text)]
    simp
  · show pieceText source ⟨[], nlTok, l.byte_offset, l.byte_offset⟩ = [] ++ nlTok
    unfold pieceText
    rw [sliceStr_self_nil]
    rfl

end Hyperprose

namespace Hyperprose

lemma paramPiecesGo_nil (dkw : List Char) (total i : Nat) :
    paramPiecesGo dkw total i [] = [] := rfl

lemma join_nil_list : (([] : List (List Char))).join = [] := rfl

lemma join_cons_list (a : List Char) (l : List (List Char)) :
    (a :: l).join = a ++ l.join := rfl

lemma paramPiecesGo_join {source : List Char} (hcr : '\r' ∉ source)
    (dkw : List Char) (total : Nat) :
    ∀ (ps : List Line) (i : Nat), i + ps.length = total → ps ≠ [] →
      (∀ p ∈ ps, p ∈ lex source) →
      ((paramPiecesGo dkw total i ps).map (pieceText source)).join =
        (if i = 0 then dkw ++ " __hyper_template__(".toList else ", ".toList) ++
          List.intercalate ", ".toList (ps.map (fun p =>
            sliceStr p.text (content_bounds p.text).1 (content_bounds p.text).2)) ++
          "):\n".toList := by
  intro ps
  induction ps with
  | nil => intro i h hne _; exact absurd rfl hne
  | cons p rest ih =>
    intro i h hne hmem
    have hp : p ∈ lex source := hmem p (List.mem_cons_self p rest)
    have hsl : sliceStr source (p.byte_offset + (content_bounds p.text).1)
        (p.byte_offset + (content_bounds p.text).2) =
        sliceStr p.text (content_bounds p.text).1 (content_bounds p.text).2 :=
      lex_slice hcr hp (cb_start_le_end p.text) (cb_end_le_length p.text)
    cases rest with
    | nil =>
      unfold paramPiecesGo
      rw [List.map_cons, paramPiecesGo_nil, List.map_nil, join_cons_list,
        join_nil_list]
      unfold pieceText
      dsimp only
      rw [hsl]
      rw [if_pos (show i = total - 1 by
        simp only [List.length_cons, List.length_nil] at h; omega)]
      rw [List.map_cons, List.map_nil, intercalate_singleton_list]
      simp
    | cons q rs =>
      unfold paramPiecesGo
      rw [List.map_cons, join_cons_list]
      rw [ih (i + 1) (by simp only [List.length_cons] at h ⊢; omega) (by simp)
        (fun x hx => hmem x (List.mem_cons_of_mem _ hx))]
      unfold pieceText
      dsimp only
      rw [hsl]
      rw [if_neg (show ¬ i = total - 1 by
        simp only [List.length_cons] at h; omega)]
      rw [if_neg (show ¬ i + 1 = 0 by omega)]
      simp [intercalate_cons₂]

end Hyperprose

namespace Hyperprose

lemma bodyStep_piecesOK {source : List Char} (hcr : '\r' ∉ source) {st : St}
    {l : Line} (hl : l ∈ lex source) (h : piecesOK source st) :
    piecesOK source (bodyStep st l) := by
  obtain ⟨ps, hps, hj⟩ := h
  refine ⟨ps ++ [(bodyGen st.level st.stack st.out_line l).piece], ?_, ?_⟩
  · show st.pieces.map _ = _
    rw [hps]
    rfl
  · rw [piecesJoin_append, piecesJoin_singleton, hj, bodyStep_output,
      joinNL_append, joinNL_singleton, bodyGen_pieceText hcr hl]

lemma leadStep_piecesOK {source : List Char} (hcr : '\r' ∉ source) {st : St}
    {l : Line} (hl : l ∈ lex source) (h : piecesOK source st) :
    piecesOK source (leadStep st l) := by
  obtain ⟨ps, hps, hj⟩ := h
  refine ⟨ps ++ [(leadGen st.out_line l).2.2], ?_, ?_⟩
  · show st.pieces.map _ = _
    rw [hps]
    rfl
  · rw [piecesJoin_append, piecesJoin_singleton, hj, leadStep_output,
      joinNL_append, joinNL_singleton, leadGen_pieceText hcr hl]

lemma emitSignature_piecesOK {source : List Char} (hcr : '\r' ∉ source)
    (dkw : List Char) (lines params : List Line) (bs : Nat) {st : St}
    (hmem : ∀ p ∈ params, p ∈ lex source)
    (h : piecesOK source st) :
    piecesOK source (emitSignature dkw lines params bs st) := by
  obtain ⟨ps, hps, hj⟩ := h
  unfold emitSignature
  cases params with
  | nil =>
    dsimp only
    refine ⟨ps ++ [⟨dkw ++ " __hyper_template__():\n".toList, [],
      (if bs < lines.length then
        match lines.get? bs with
        | some l => l.byte_offset
        | none => 0
      else
        match lines.getLast? with
        | some l => l.byte_offset
        | none => 0),
      (if bs < lines.length then
        match lines.get? bs with
        | some l => l.byte_offset
        | none => 0
      else
        match lines.getLast? with
        | some l => l.byte_offset
        | none => 0)⟩], ?_, ?_⟩
    · rw [hps]
      rfl
    · rw [piecesJoin_append, piecesJoin_singleton, hj, joinNL_append,
        joinNL_singleton]
      unfold pieceText
      dsimp only
      rw [sliceStr_self_nil]
      rw [show (" __hyper_template__():\n".toList : List Char) =
        " __hyper_template__():".toList ++ nlTok from rfl]
      simp
  | cons first rest =>
    dsimp only
    refine ⟨ps ++ paramPiecesGo dkw (first :: rest).length 0 (first :: rest),
      ?_, ?_⟩
    · rw [hps]
      rfl
    · rw [piecesJoin_append, hj, joinNL_append, joinNL_singleton]
      rw [show piecesJoin source
          (paramPiecesGo dkw (first :: rest).length 0 (first :: rest)) =
        ((paramPiecesGo dkw (first :: rest).length 0 (first :: rest)).map
          (pieceText source)).join from rfl]
      rw [paramPiecesGo_join hcr dkw (first :: rest).length (first :: rest) 0
        (by simp) (by simp) hmem]
      rw [if_pos rfl]
      rw [show ("):\n".toList : List Char) = "):".toList ++ nlTok from rfl]
      simp

lemma stThree_piecesOK (source : List Char) (hcr : '\r' ∉ source) :
    piecesOK source (stThree source true) := by
  unfold stThree
  apply foldl_invariant (piecesOK source) bodyStep
  · intro s l hl hs
    exact bodyStep_piecesOK hcr (List.drop_subset _ _ hl) hs
  · unfold stTwo
    apply emitSignature_piecesOK hcr
    · intro p hp
      exact find_structure_params_mem hp
    · unfold stOne
      apply foldl_invariant (piecesOK source) leadStep
      · intro s l hl hs
        exact leadStep_piecesOK hcr (find_structure_leading_mem hl) hs
      · exact ⟨[], rfl, rfl⟩

end Hyperprose

namespace Hyperprose

lemma joinNL_eq_intercalate :
    ∀ (out : List (List Char)), out ≠ [] →
      joinNL out = List.intercalate nlTok out ++ nlTok := by
  intro out
  induction out with
  | nil => intro h; exact absurd rfl h
  | cons a rest ih =>
    intro h
    cases rest with
    | nil =>
      rw [intercalate_singleton_list]
      unfold joinNL
      simp
    | cons b l =>
      rw [intercalate_cons₂]
      rw [show joinNL (a :: b :: l) = (a ++ nlTok) ++ joinNL (b :: l) from rfl]
      rw [ih (by simp)]
      simp

lemma joinNL_finalize (out : List (List Char)) (hne : out ≠ [])
    (h : ∀ l ∈ out, '\n' ∉ l) :
    joinNL out = finalizeCode out ++
      (if out.getLast? = some [] then nlTok else []) := by
  rcases List.eq_nil_or_concat out with hnil | ⟨ys, z, hconcat⟩
  · exact absurd hnil hne
  · rw [List.concat_eq_append] at hconcat
    subst hconcat
    by_cases hz : z = []
    · subst hz
      rw [if_pos (by rw [List.getLast?_concat])]
      cases ys with
      | nil => decide
      | cons y ys2 =>
        rw [joinNL_eq_intercalate _ (by simp)]
        unfold finalizeCode
        dsimp only
        rw [intercalate_concat _ _ (y :: ys2) (by simp)]
        have hlast : (List.intercalate nlTok (y :: ys2) ++ nlTok ++
            ([] : List Char)).getLast? = some '\n' := by
          rw [List.append_nil]
          rw [getLast?_append_left_of_ne_nil _ (by simp [nlTok])]
          rfl
        rw [if_neg (by rw [hlast]; simp)]
        try simp
    · rw [if_neg (by rw [List.getLast?_concat]; simp [hz])]
      rw [joinNL_eq_intercalate _ (by simp)]
      unfold finalizeCode
      dsimp only
      have hzl : ∃ c, z.getLast? = some c ∧ c ≠ '\n' := by
        obtain ⟨c, hc⟩ := getLast?_isSome_of_ne_nil z hz
        exact ⟨c, hc, fun hcn =>
          (h z (by simp)) (hcn ▸ List.mem_of_getLast?_eq_some hc)⟩
      obtain ⟨c, hc, hcn⟩ := hzl
      have hcode_last : (List.intercalate nlTok (ys ++ [z])).getLast? = some c := by
        cases ys with
        | nil =>
          rw [List.nil_append, intercalate_singleton_list]
          exact hc
        | cons y ys2 =>
          rw [intercalate_concat _ _ (y :: ys2) (by simp)]
          rw [getLast?_append_left_of_ne_nil _ hz]
          exact hc
      have hcode_ne : List.intercalate nlTok (ys ++ [z]) ≠ [] := by
        intro he
        rw [he] at hcode_last
        simp at hcode_last
      rw [if_pos (by
        rw [hcode_last]
        simp [List.isEmpty_iff, hcode_ne, hcn])]
      simp

/-- C2 (amended): for a source containing no carriage return, with
`include_injection = true` the pieces are present and concatenating each
piece's prefix, source byte slice `[src_start, src_end)` and suffix yields
the generated code, plus one extra trailing newline exactly when the last
source line lies in the body and is blank. -/
theorem c2_pieces_amended (source : List Char) (hcr : '\r' ∉ source) :
    ∃ ps, (transpile_ext source true).python_pieces = some ps ∧
      piecesJoin source ps =
        (transpile_ext source true).python_code ++
          (if endsBlankSrc source = true then nlTok else []) := by
  obtain ⟨ps, hps, hj⟩ := stThree_piecesOK source hcr
  refine ⟨ps, ?_, ?_⟩
  · rw [transpile_ext_eq]
    exact hps
  · rw [transpile_ext_eq]
    show piecesJoin source ps = finalizeCode (stThree source true).output ++ _
    rw [hj]
    have hne : (stThree source true).output ≠ [] := by
      obtain ⟨s, tail, rest, hout, -, -⟩ := stThree_shape source true
      rw [hout]
      simp
    rw [joinNL_finalize _ hne (fun l hl => ((stThree_inv source true).2 l hl).1)]
    congr 1
    by_cases hb : endsBlankSrc source = true
    · rw [if_pos ((stThree_lastBlank source true).mpr hb), if_pos hb]
    · rw [if_neg (fun hc => hb ((stThree_lastBlank source true).mp hc)),
        if_neg hb]

/-- C2 counterexample: on `"x\n\n"` the reconstruction has one newline too
many, and on the CRLF source `"<p>\r\nx\r\n"` the recorded byte offsets
drift, so the reconstruction is wrong even with the trailing-newline
correction. -/
theorem c2_counterexample :
    ((transpile_ext "x\n\n".toList true).python_pieces.map
        (piecesJoin "x\n\n".toList)) ≠
      some (transpile_ext "x\n\n".toList true).python_code ∧
    ((transpile_ext "<p>\r\nx\r\n".toList true).python_pieces.map
        (piecesJoin "<p>\r\nx\r\n".toList)) ≠
      some ((transpile_ext "<p>\r\nx\r\n".toList true).python_code ++
        (if endsBlankSrc "<p>\r\nx\r\n".toList = true then nlTok else [])) := by
  refine ⟨?_, ?_⟩ <;> decide

/-- C2 witness: the amended reconstruction theorem at `"<p>\n"`. -/
theorem c2_pieces_witness :
    ∃ ps, (transpile_ext "<p>\n".toList true).python_pieces = some ps ∧
      piecesJoin "<p>\n".toList ps =
        (transpile_ext "<p>\n".toList true).python_code ++
          (if endsBlankSrc "<p>\n".toList = true then nlTok else []) :=
  c2_pieces_amended "<p>\n".toList (by decide)

end Hyperprose
